import Mathlib

/-!
# Verification of the `yyyymmdd` DateRange library

A shallow embedding of `yyyymmdd/range.py` (the `DateRange` class),
`yyyymmdd/misc.py` (`egcd`) and the date-string conversions of
`yyyymmdd/date.py`, together with proofs about the embedded operations.

`Date` values are modelled by their proleptic-Gregorian ordinals
(`datetime.date.toordinal()`), integers in `[1, 3652059]`; the `Date ↔ ordinal`
conversion in the Python code is a bijection, and every arithmetic operation of
the library acts on ordinals.  Python strings are modelled as `List Char`.
Fallible Python code (code that can raise) is modelled with `Except PyErr`.
-/

namespace Yyyymmdd

/-- Python exception kinds raised by the modelled code paths. -/
inductive PyErr where
  | valueError
  | typeError
  | indexError
  | overflowError
  | notImplementedError
deriving DecidableEq, Repr

/-- `datetime.date.min.toordinal()` (0001-01-01). -/
def minOrd : Int := 1

/-- `datetime.date.max.toordinal()` (9999-12-31). -/
def maxOrd : Int := 3652059

/-- `Date.__add__` / `Date.__sub__` with an int: `fromordinal(ordinal + days)`,
which raises `ValueError` when the result leaves the supported domain. -/
def dateAddE (o d : Int) : Except PyErr Int :=
  if 1 ≤ o + d ∧ o + d ≤ maxOrd then .ok (o + d) else .error .valueError

/-- The `DateRange` class of `range.py`: wraps `range(start_ordinal,
stop_ordinal, step)`.  `start`/`stop` are the ordinals of the start/stop
`Date`s. -/
structure DateRange where
  start : Int
  stop : Int
  step : Int
deriving DecidableEq, Repr

/-- The constructed ranges have `Date` bounds and a nonzero step (Python
`range` refuses step 0): validity of the stored fields. -/
def DateRange.Valid (r : DateRange) : Prop :=
  1 ≤ r.start ∧ r.start ≤ maxOrd ∧ 1 ≤ r.stop ∧ r.stop ≤ maxOrd ∧ r.step ≠ 0

instance (r : DateRange) : Decidable r.Valid := by
  unfold DateRange.Valid; infer_instance

/-- `DateRange.empty()`: `cls(cls.max_date, cls.max_date)`. -/
def DateRange.emptyRange : DateRange := ⟨maxOrd, maxOrd, 1⟩

/-- `DateRange.full()` with the default step 1: `cls(min_date, max_date)`. -/
def DateRange.fullRange : DateRange := ⟨minOrd, maxOrd, 1⟩

/-- `len(range(start, stop, step))`, as computed by CPython
(`range_length`): `0` when the direction of travel opposes `stop - start`,
otherwise `(|stop - start| - 1) // |step| + 1`. -/
def DateRange.length (r : DateRange) : Nat :=
  if 0 < r.step then
    (if r.start < r.stop then ((r.stop - r.start - 1) / r.step).toNat + 1 else 0)
  else
    (if r.stop < r.start then ((r.start - r.stop - 1) / (-r.step)).toNat + 1 else 0)

/-- The enumerated sequence of the range: CPython's range iterator yields
`start + i*step` for `i = 0 .. len-1`. -/
def DateRange.toList (r : DateRange) : List Int :=
  (List.range r.length).map (fun k : Nat => r.start + r.step * (k : Int))

/-- `date in self`: CPython `range.__contains__` for ints — the bounds check
in the direction of the step plus the congruence `(o - start) % step == 0`
(Python `%`, i.e. `Int.fmod`). -/
def DateRange.containsOrd (r : DateRange) (o : Int) : Bool :=
  (if 0 < r.step then decide (r.start ≤ o) && decide (o < r.stop)
   else decide (r.stop < o) && decide (o ≤ r.start))
  && decide ((o - r.start).fmod r.step = 0)

/-- `DateRange.__eq__`, delegating to CPython `range.__eq__`
(`range_equals`): equal lengths, and if nonempty equal starts, and if longer
than one element equal steps. -/
def DateRange.beq (a b : DateRange) : Bool :=
  a.length == b.length &&
    (a.length == 0 || (a.start == b.start && (a.length == 1 || a.step == b.step)))

/-- `DateRange.__getitem__` for an int index, via CPython
`compute_range_item`: negative indices count from the end, out-of-range
indices raise `IndexError`; the resulting ordinal is converted back to a
`Date` (`fromordinal`, which checks the domain). -/
def DateRange.getItem (r : DateRange) (i : Int) : Except PyErr Int :=
  let i' := if i < 0 then i + r.length else i
  if 0 ≤ i' ∧ i' < (r.length : Int) then
    let v := r.start + i' * r.step
    if 1 ≤ v ∧ v ≤ maxOrd then .ok v else .error .valueError
  else .error .indexError

/-- `DateRange.index`: CPython `range.index` returns `(o - start) // step`
when the value is contained, and the wrapper re-raises `ValueError`
otherwise. -/
def DateRange.index (r : DateRange) (o : Int) : Except PyErr Int :=
  if r.containsOrd o then .ok ((o - r.start).fdiv r.step) else .error .valueError

/-- `DateRange.count`: 1 when contained else 0. -/
def DateRange.count (r : DateRange) (o : Int) : Nat :=
  if r.containsOrd o then 1 else 0

/-! ## `egcd` from `misc.py`

`egcd(a, b)` returns `(g, x, y)` with `a*x + b*y = g = gcd(a, b)`.  The loop
`while a: q, r = b // a, b % a; ...` is modelled with explicit fuel; the
callers pass positive ints, for which Python `//`/`%` agree with `Nat`
division. -/

/-- The body of `misc.egcd`'s loop, with fuel.  State `(a, b, x, y, u, v)`
as in the Python code. -/
def egcdAux : Nat → Nat → Nat → Int → Int → Int → Int → Nat × Int × Int
  | 0, _, b, x, y, _, _ => (b, x, y)
  | _ + 1, 0, b, x, y, _, _ => (b, x, y)
  | fuel + 1, a + 1, b, x, y, u, v =>
      let q : Nat := b / (a + 1)
      let r : Nat := b % (a + 1)
      egcdAux fuel r (a + 1) u v (x - u * q) (y - v * q)

/-- `misc.egcd` on the nonnegative inputs the library passes it. -/
def egcd (a b : Nat) : Nat × Int × Int := egcdAux (a + 1) a b 0 1 1 0

/-! ## `DateRange.intersection`

Direct translation of `range.py` lines 309–355.  Two faithful details:

* `empty = self.empty()` binds a `DateRange` *instance*; `return empty()`
  then calls that instance, which raises
  `TypeError: 'DateRange' object is not callable`.  The two `return empty()`
  paths are therefore modelled as `.error .typeError`.
* `start = self.start + crt + filler` performs two `Date + int` additions,
  each of which goes through `fromordinal` and can raise `ValueError` when
  the result leaves the supported date domain (`dateAddE`). -/
/-- `step0 = abs(self.step)` of `intersection`. -/
def interStep0 (a : DateRange) : Nat := a.step.natAbs

/-- `sign = (self.step > 0) - (self.step < 0)` of `intersection`. -/
def interSign (a : DateRange) : Int :=
  (if 0 < a.step then 1 else 0) - (if a.step < 0 then 1 else 0)

/-- `offset = other.start - self.start` of `intersection` (`Date - Date`). -/
def interOffset (a b : DateRange) : Int := b.start - a.start

/-- `gcd, x, y = egcd(step0, step1)` of `intersection`: the gcd part. -/
def interG (a b : DateRange) : Nat := (egcd (interStep0 a) (interStep0 b)).1

/-- The Bézout coefficient `x` of `egcd(step0, step1)`. -/
def interX (a b : DateRange) : Int := (egcd (interStep0 a) (interStep0 b)).2.1

/-- `interval0 = step0 // gcd` of `intersection`. -/
def interval0 (a b : DateRange) : Int := ((interStep0 a / interG a b : Nat) : Int)

/-- `interval1 = step1 // gcd` of `intersection`. -/
def interval1 (a b : DateRange) : Int := ((interStep0 b / interG a b : Nat) : Int)

/-- `step = interval0 * interval1 * gcd * sign` of `intersection`. -/
def interStep (a b : DateRange) : Int :=
  interval0 a b * interval1 a b * (interG a b : Int) * interSign a

/-- `crt = (offset * interval0 * (x % interval1)) % step` of `intersection`
(Python `%` on both sides, `Int.fmod`). -/
def interCrt (a b : DateRange) : Int :=
  (interOffset a b * interval0 a b * ((interX a b).fmod (interval1 a b))).fmod
    (interStep a b)

/-- The `filler` computation of `intersection`: `gap = offset - crt`, rounded
up to the next multiple of `step` when the progression must start at or past
`other.start`. -/
def interFiller (a b : DateRange) : Int :=
  if (0 < interSign a ∧ 0 < interOffset a b)
      ∨ (interSign a < 0 ∧ interOffset a b < 0) then
    if (interOffset a b - interCrt a b).fmod (interStep a b) = 0 then
      interOffset a b - interCrt a b
    else
      ((interOffset a b - interCrt a b).fdiv (interStep a b) + 1) * interStep a b
  else 0

/-- `stop = stop_min(...) if sign > 0 else stop_max_inv(...)` of
`intersection` (both stops are always actual dates, never `None`). -/
def interStop (a b : DateRange) : Int :=
  if 0 < interSign a then min a.stop b.stop else max a.stop b.stop

def DateRange.intersection (a b : DateRange) : Except PyErr DateRange :=
  if (decide (0 < a.step)) ≠ (decide (0 < b.step)) then .error .valueError
  else if a.length = 0 ∨ b.length = 0 then .error .typeError
  else if (interOffset a b).fmod (interG a b : Int) ≠ 0 then .error .typeError
  else
    match dateAddE a.start (interCrt a b) with
    | .error e => .error e
    | .ok t =>
      match dateAddE t (interFiller a b) with
      | .error e => .error e
      | .ok s => .ok ⟨s, interStop a b, interStep a b⟩

/-! ## Generic `Int.fmod`/`Int.fdiv` helper lemmas

Python `//` and `%` are `Int.fdiv`/`Int.fmod`; the library uses them with
divisors of both signs, so we derive the bounds for negative divisors from
the positive-divisor lemmas in core. -/

theorem fdiv_neg_both (a b : Int) : (-a).fdiv (-b) = a.fdiv b := by
  rcases a with (_ | m) | m <;> rcases b with (_ | n) | n <;>
    first
    | rfl
    | simp only [show Int.ofNat 0 = (0 : Int) from rfl, neg_zero, Int.fdiv_zero]

theorem fmod_neg_both (a b : Int) : (-a).fmod (-b) = -(a.fmod b) := by
  have h1 := Int.fmod_def a b
  have h2 := Int.fmod_def (-a) (-b)
  rw [h2, fdiv_neg_both, h1]; ring

theorem fmod_nonpos_of_neg (a : Int) {b : Int} (hb : b < 0) : a.fmod b ≤ 0 := by
  have h := @Int.fmod_nonneg' (-a) (-b) (by omega)
  have h2 := fmod_neg_both (-a) (-b)
  simp only [neg_neg] at h2
  omega

theorem lt_fmod_of_neg (a : Int) {b : Int} (hb : b < 0) : b < a.fmod b := by
  have h := @Int.fmod_lt_of_pos (-a) (-b) (by omega)
  have h2 := fmod_neg_both (-a) (-b)
  simp only [neg_neg] at h2
  omega

theorem fmod_eq_zero_iff_dvd {a b : Int} : a.fmod b = 0 ↔ b ∣ a := by
  constructor
  · intro h
    have hd := Int.fmod_def a b
    exact ⟨a.fdiv b, by linarith⟩
  · rintro ⟨k, rfl⟩
    exact Int.mul_fmod_right b k

theorem fmod_dvd_self (a b : Int) : b ∣ a - a.fmod b := by
  have hd := Int.fmod_def a b
  exact ⟨a.fdiv b, by linarith⟩

/-! ## Range semantics: length, enumeration, membership -/

theorem DateRange.toList_length (r : DateRange) : r.toList.length = r.length := by
  unfold DateRange.toList
  rw [List.length_map, List.length_range]

/-- The index/bound correspondence of `range`: position `k` exists iff the
`k`-th term is still on the open side of `stop`. -/
theorem DateRange.lt_length_iff {r : DateRange} (hs : r.step ≠ 0) (k : Nat) :
    k < r.length ↔
      (if 0 < r.step then r.start + r.step * k < r.stop
       else r.stop < r.start + r.step * k) := by
  unfold DateRange.length
  rcases lt_or_gt_of_ne hs with hneg | hpos
  · simp only [if_neg (by omega : ¬ 0 < r.step)]
    by_cases hlt : r.stop < r.start
    · simp only [if_pos hlt]
      set Δ : Int := r.start - r.stop - 1 with hΔ
      have hΔ0 : 0 ≤ Δ := by omega
      have hq0 : 0 ≤ Δ / (-r.step) := Int.ediv_nonneg hΔ0 (by omega)
      have htn : ((Δ / (-r.step)).toNat : Int) = Δ / (-r.step) := Int.toNat_of_nonneg hq0
      constructor
      · intro hk
        have hk' : (k : Int) ≤ Δ / (-r.step) := by omega
        have := (@Int.le_ediv_iff_mul_le (k : Int) Δ (-r.step)
          (by omega)).mp hk'
        have hcomm : (k : Int) * (-r.step) = -(r.step * k) := by ring
        rw [hcomm] at this
        omega
      · intro hbound
        have hmul : (k : Int) * (-r.step) ≤ Δ := by
          have hcomm : (k : Int) * (-r.step) = -(r.step * k) := by ring
          rw [hcomm]; omega
        have := (@Int.le_ediv_iff_mul_le (k : Int) Δ (-r.step)
          (by omega)).mpr hmul
        omega
    · simp only [if_neg hlt]
      constructor
      · omega
      · intro hbound
        exfalso
        have hk0 : r.step * (k : Int) ≤ 0 := by
          have : (0 : Int) ≤ (k : Int) := by positivity
          exact mul_nonpos_of_nonpos_of_nonneg (by omega) this
        omega
  · simp only [if_pos hpos]
    by_cases hlt : r.start < r.stop
    · simp only [if_pos hlt]
      set Δ : Int := r.stop - r.start - 1 with hΔ
      have hΔ0 : 0 ≤ Δ := by omega
      have hq0 : 0 ≤ Δ / r.step := Int.ediv_nonneg hΔ0 (by omega)
      have htn : ((Δ / r.step).toNat : Int) = Δ / r.step := Int.toNat_of_nonneg hq0
      constructor
      · intro hk
        have hk' : (k : Int) ≤ Δ / r.step := by omega
        have := (@Int.le_ediv_iff_mul_le (k : Int) Δ r.step
          (by omega)).mp hk'
        have hcomm : (k : Int) * r.step = r.step * k := by ring
        rw [hcomm] at this
        omega
      · intro hbound
        have hmul : (k : Int) * r.step ≤ Δ := by
          have hcomm : (k : Int) * r.step = r.step * k := by ring
          rw [hcomm]; omega
        have := (@Int.le_ediv_iff_mul_le (k : Int) Δ r.step
          (by omega)).mpr hmul
        omega
    · simp only [if_neg hlt]
      constructor
      · omega
      · intro hbound
        exfalso
        have hk0 : (0 : Int) ≤ r.step * (k : Int) := by positivity
        omega

theorem DateRange.mem_toList (r : DateRange) (o : Int) :
    o ∈ r.toList ↔ ∃ k : Nat, k < r.length ∧ o = r.start + r.step * k := by
  constructor
  · intro h
    obtain ⟨k, hk, he⟩ := List.mem_map.mp h
    exact ⟨k, List.mem_range.mp hk, he.symm⟩
  · rintro ⟨k, hk, rfl⟩
    exact List.mem_map.mpr ⟨k, List.mem_range.mpr hk, rfl⟩

/-- Enumerated membership agrees with the O(1) membership test
(`__contains__`). -/
theorem DateRange.mem_toList_iff_contains {r : DateRange} (hs : r.step ≠ 0)
    (o : Int) : o ∈ r.toList ↔ r.containsOrd o = true := by
  rw [DateRange.mem_toList]
  unfold DateRange.containsOrd
  rcases lt_or_gt_of_ne hs with hneg | hpos
  · simp only [if_neg (by omega : ¬ 0 < r.step), Bool.and_eq_true, decide_eq_true_eq]
    constructor
    · rintro ⟨k, hk, rfl⟩
      have hb := (DateRange.lt_length_iff hs k).mp hk
      rw [if_neg (by omega : ¬ 0 < r.step)] at hb
      have hnn : r.step * (k : Int) ≤ 0 :=
        mul_nonpos_of_nonpos_of_nonneg (by omega) (by positivity)
      refine ⟨⟨hb, by omega⟩, ?_⟩
      rw [fmod_eq_zero_iff_dvd]
      exact ⟨k, by ring⟩
    · rintro ⟨⟨hlow, hhigh⟩, hdvd⟩
      rw [fmod_eq_zero_iff_dvd] at hdvd
      obtain ⟨k, hk⟩ := hdvd
      have hknn : 0 ≤ k := by
        by_contra hkneg
        have : 0 < r.step * k := mul_pos_of_neg_of_neg hneg (by omega)
        omega
      have hcast : (k.toNat : Int) = k := Int.toNat_of_nonneg hknn
      refine ⟨k.toNat, ?_, by rw [hcast]; omega⟩
      rw [DateRange.lt_length_iff hs, if_neg (by omega : ¬ 0 < r.step), hcast]
      omega
  · simp only [if_pos hpos, Bool.and_eq_true, decide_eq_true_eq]
    constructor
    · rintro ⟨k, hk, rfl⟩
      have hb := (DateRange.lt_length_iff hs k).mp hk
      rw [if_pos hpos] at hb
      have hnn : (0 : Int) ≤ r.step * (k : Int) := by positivity
      refine ⟨⟨by omega, hb⟩, ?_⟩
      rw [fmod_eq_zero_iff_dvd]
      exact ⟨k, by ring⟩
    · rintro ⟨⟨hlow, hhigh⟩, hdvd⟩
      rw [fmod_eq_zero_iff_dvd] at hdvd
      obtain ⟨k, hk⟩ := hdvd
      have hknn : 0 ≤ k := by
        by_contra hkneg
        have : r.step * k < 0 := mul_neg_of_pos_of_neg hpos (by omega)
        omega
      have hcast : (k.toNat : Int) = k := Int.toNat_of_nonneg hknn
      refine ⟨k.toNat, ?_, by rw [hcast]; omega⟩
      rw [DateRange.lt_length_iff hs, if_pos hpos, hcast]
      omega

theorem DateRange.toList_get (r : DateRange) (i : Nat) (h : i < r.toList.length) :
    r.toList.get ⟨i, h⟩ = r.start + r.step * (i : Int) := by
  simp [DateRange.toList]

theorem DateRange.toList_getElem (r : DateRange) (i : Nat) (h : i < r.length) :
    r.toList[i]? = some (r.start + r.step * (i : Int)) := by
  have hlen : i < r.toList.length := by rw [DateRange.toList_length]; exact h
  rw [List.getElem?_eq_getElem hlen]
  have := DateRange.toList_get r i hlen
  rw [List.get_eq_getElem] at this
  rw [this]

/-- CPython `range_equals` decides exactly sequence equality. -/
theorem DateRange.beq_iff_toList_eq {a b : DateRange} :
    DateRange.beq a b = true ↔ a.toList = b.toList := by
  unfold DateRange.beq
  simp only [Bool.and_eq_true, Bool.or_eq_true, beq_iff_eq]
  constructor
  · rintro ⟨hlen, hrest⟩
    apply List.ext_get
    · rw [DateRange.toList_length, DateRange.toList_length, hlen]
    · intro i h1 h2
      rw [DateRange.toList_get, DateRange.toList_get]
      rw [DateRange.toList_length] at h1 h2
      rcases hrest with hzero | ⟨hstart, hrest1⟩
      · omega
      · rcases hrest1 with hone | hstep
        · have : i = 0 := by omega
          subst this
          simp [hstart]
        · rw [hstart, hstep]
  · intro hl
    have hlen : a.length = b.length := by
      rw [← DateRange.toList_length, ← DateRange.toList_length, hl]
    refine ⟨hlen, ?_⟩
    by_cases h0 : a.length = 0
    · exact Or.inl h0
    · right
      have h1a : 0 < a.toList.length := by rw [DateRange.toList_length]; omega
      have h1b : 0 < b.toList.length := by rw [DateRange.toList_length]; omega
      have hget0 := List.get_of_eq hl ⟨0, h1a⟩
      rw [DateRange.toList_get, DateRange.toList_get] at hget0
      simp only [Nat.cast_zero, mul_zero, add_zero] at hget0
      refine ⟨hget0, ?_⟩
      by_cases hone : a.length = 1
      · exact Or.inl hone
      · right
        have h2a : 1 < a.toList.length := by rw [DateRange.toList_length]; omega
        have h2b : 1 < b.toList.length := by rw [DateRange.toList_length]; omega
        have hget1 := List.get_of_eq hl ⟨1, h2a⟩
        rw [DateRange.toList_get, DateRange.toList_get] at hget1
        simp only [Nat.cast_one, mul_one] at hget1
        omega

/-- C2: `DateRange.__eq__` is sequence equality: two ranges are equal iff
they enumerate the same finite sequence of dates; all empty ranges are
mutually equal, and all one-element ranges with the same single element are
mutually equal, whatever the stored `stop`/`step`. -/
theorem eq_iff_same_sequence (a b : DateRange)
    (_ha : a.step ≠ 0) (_hb : b.step ≠ 0) :
    (DateRange.beq a b = true ↔ a.toList = b.toList)
    ∧ (a.length = 0 → b.length = 0 → DateRange.beq a b = true)
    ∧ (a.length = 1 → b.length = 1 → a.start = b.start →
        DateRange.beq a b = true) := by
  refine ⟨DateRange.beq_iff_toList_eq, ?_, ?_⟩
  · intro h0a h0b
    unfold DateRange.beq
    simp [h0a, h0b]
  · intro h1a h1b hstart
    unfold DateRange.beq
    simp [h1a, h1b, hstart]

theorem eq_iff_same_sequence_witness :
    ((⟨100, 100, 1⟩ : DateRange).step ≠ 0) ∧ ((⟨50, 40, 3⟩ : DateRange).step ≠ 0) ∧
    ((DateRange.beq ⟨100, 100, 1⟩ ⟨50, 40, 3⟩ = true ↔
        DateRange.toList ⟨100, 100, 1⟩ = DateRange.toList ⟨50, 40, 3⟩)
      ∧ ((⟨100, 100, 1⟩ : DateRange).length = 0 →
          (⟨50, 40, 3⟩ : DateRange).length = 0 →
          DateRange.beq ⟨100, 100, 1⟩ ⟨50, 40, 3⟩ = true)
      ∧ ((⟨100, 100, 1⟩ : DateRange).length = 1 →
          (⟨50, 40, 3⟩ : DateRange).length = 1 →
          (⟨100, 100, 1⟩ : DateRange).start = (⟨50, 40, 3⟩ : DateRange).start →
          DateRange.beq ⟨100, 100, 1⟩ ⟨50, 40, 3⟩ = true)) :=
  ⟨by decide, by decide,
    eq_iff_same_sequence ⟨100, 100, 1⟩ ⟨50, 40, 3⟩ (by decide) (by decide)⟩

/-! ## C5: length is the stepped-interval ceiling -/

theorem ceil_div_max_eq {d p : Int} (hp : 0 < p) :
    max 0 ⌈(d : ℚ) / (p : ℚ)⌉ = if 0 < d then (d - 1) / p + 1 else 0 := by
  have hpq : (0 : ℚ) < (p : ℚ) := by exact_mod_cast hp
  by_cases hd : 0 < d
  · rw [if_pos hd]
    set n : Int := (d - 1) / p + 1 with hn
    have hdm := Int.ediv_add_emod (d - 1) p
    have hm0 : 0 ≤ (d - 1) % p := Int.emod_nonneg _ (by omega)
    have hmp : (d - 1) % p < p := Int.emod_lt_of_pos _ hp
    have hceil : ⌈(d : ℚ) / (p : ℚ)⌉ = n := by
      rw [Int.ceil_eq_iff]
      constructor
      · rw [lt_div_iff₀ hpq]
        have hint : (n - 1) * p < d := by
          have : (n - 1) * p = p * ((d - 1) / p) := by rw [hn]; ring
          omega
        calc ((n : ℚ) - 1) * (p : ℚ) = ((n - 1 : Int) : ℚ) * ((p : Int) : ℚ) := by
              push_cast; ring
          _ < (d : ℚ) := by exact_mod_cast hint
      · rw [div_le_iff₀ hpq]
        have hint : d ≤ n * p := by
          have : n * p = p * ((d - 1) / p) + p := by rw [hn]; ring
          omega
        exact_mod_cast hint
    rw [hceil]
    have hn1 : 1 ≤ n := by
      have h1 : 0 ≤ (d - 1) / p := Int.ediv_nonneg (by omega) (by omega)
      omega
    omega
  · rw [if_neg hd]
    have hle : ⌈(d : ℚ) / (p : ℚ)⌉ ≤ 0 := by
      rw [Int.ceil_le]
      push_cast
      exact div_nonpos_of_nonpos_of_nonneg (by exact_mod_cast (by omega : d ≤ 0))
        (le_of_lt hpq)
    omega

/-- C5: for every valid `(start, stop, step)` with nonzero step, the length
is `max 0 ⌈(stop − start) / step⌉` — in particular `0` whenever the sign of
`stop − start` opposes the step — and is always nonnegative. -/
theorem length_eq_ceil (r : DateRange) (h : r.Valid) :
    (r.length : Int) = max 0 ⌈((r.stop - r.start : Int) : ℚ) / ((r.step : Int) : ℚ)⌉
    ∧ 0 ≤ (r.length : Int)
    ∧ (0 < r.step → r.stop ≤ r.start → r.length = 0)
    ∧ (r.step < 0 → r.start ≤ r.stop → r.length = 0) := by
  obtain ⟨-, -, -, -, hs⟩ := h
  refine ⟨?_, by positivity, ?_, ?_⟩
  · rcases lt_or_gt_of_ne hs with hneg | hpos
    · have hrw : ((r.stop - r.start : Int) : ℚ) / ((r.step : Int) : ℚ)
          = ((r.start - r.stop : Int) : ℚ) / ((-r.step : Int) : ℚ) := by
        push_cast
        rw [div_eq_div_iff (by exact_mod_cast hs) (by exact_mod_cast (by omega : -r.step ≠ 0))]
        ring
      rw [hrw, ceil_div_max_eq (by omega : (0 : Int) < -r.step)]
      unfold DateRange.length
      rw [if_neg (by omega : ¬ 0 < r.step)]
      by_cases hlt : r.stop < r.start
      · rw [if_pos hlt, if_pos (by omega : (0 : Int) < r.start - r.stop)]
        have h0 : 0 ≤ (r.start - r.stop - 1) / (-r.step) :=
          Int.ediv_nonneg (by omega) (by omega)
        push_cast
        omega
      · rw [if_neg hlt, if_neg (by omega : ¬ (0 : Int) < r.start - r.stop)]
        rfl
    · rw [ceil_div_max_eq hpos]
      unfold DateRange.length
      rw [if_pos hpos]
      by_cases hlt : r.start < r.stop
      · rw [if_pos hlt, if_pos (by omega : (0 : Int) < r.stop - r.start)]
        have h0 : 0 ≤ (r.stop - r.start - 1) / r.step :=
          Int.ediv_nonneg (by omega) (by omega)
        push_cast
        omega
      · rw [if_neg hlt, if_neg (by omega : ¬ (0 : Int) < r.stop - r.start)]
        rfl
  · intro hpos hle
    unfold DateRange.length
    rw [if_pos hpos, if_neg (by omega)]
  · intro hneg hle
    unfold DateRange.length
    rw [if_neg (by omega), if_neg (by omega)]

theorem length_eq_ceil_witness :
    (⟨700000, 700010, 3⟩ : DateRange).Valid ∧
    (((⟨700000, 700010, 3⟩ : DateRange).length : Int)
        = max 0 ⌈(((⟨700000, 700010, 3⟩ : DateRange).stop
            - (⟨700000, 700010, 3⟩ : DateRange).start : Int) : ℚ)
            / (((⟨700000, 700010, 3⟩ : DateRange).step : Int) : ℚ)⌉
      ∧ 0 ≤ ((⟨700000, 700010, 3⟩ : DateRange).length : Int)
      ∧ (0 < (⟨700000, 700010, 3⟩ : DateRange).step →
          (⟨700000, 700010, 3⟩ : DateRange).stop ≤ (⟨700000, 700010, 3⟩ : DateRange).start →
          (⟨700000, 700010, 3⟩ : DateRange).length = 0)
      ∧ ((⟨700000, 700010, 3⟩ : DateRange).step < 0 →
          (⟨700000, 700010, 3⟩ : DateRange).start ≤ (⟨700000, 700010, 3⟩ : DateRange).stop →
          (⟨700000, 700010, 3⟩ : DateRange).length = 0)) :=
  ⟨by decide, length_eq_ceil ⟨700000, 700010, 3⟩ (by decide)⟩

/-! ## C6: indexing and index/at inverse -/

theorem DateRange.elem_in_domain {r : DateRange} (h : r.Valid) {i : Nat}
    (hi : i < r.length) :
    1 ≤ r.start + r.step * (i : Int) ∧ r.start + r.step * (i : Int) ≤ maxOrd := by
  obtain ⟨h1, h2, h3, h4, hs⟩ := h
  have hb := (DateRange.lt_length_iff hs i).mp hi
  rcases lt_or_gt_of_ne hs with hneg | hpos
  · rw [if_neg (by omega : ¬ 0 < r.step)] at hb
    have : r.step * (i : Int) ≤ 0 :=
      mul_nonpos_of_nonpos_of_nonneg (by omega) (by positivity)
    simp only [maxOrd] at h2 h4 ⊢
    omega
  · rw [if_pos hpos] at hb
    have : (0 : Int) ≤ r.step * (i : Int) := by positivity
    simp only [maxOrd] at h2 h4 ⊢
    omega

/-- C6: `r[i]` returns the `i`-th element of the enumerated sequence for
every valid index; negative indices count from the end; an index beyond the
computed length raises `IndexError`; and `r.index(r[i]) == i`. -/
theorem getitem_index_spec (r : DateRange) (h : r.Valid) :
    (∀ i : Nat, i < r.length →
        r.getItem (i : Int) = .ok (r.start + r.step * (i : Int))
        ∧ r.toList[i]? = some (r.start + r.step * (i : Int))
        ∧ r.index (r.start + r.step * (i : Int)) = .ok (i : Int))
    ∧ (∀ i : Int, -(r.length : Int) ≤ i → i < 0 →
        r.getItem i = r.getItem (i + r.length))
    ∧ (∀ i : Int, (r.length : Int) ≤ i ∨ i < -(r.length : Int) →
        r.getItem i = .error .indexError) := by
  have hs : r.step ≠ 0 := h.2.2.2.2
  refine ⟨?_, ?_, ?_⟩
  · intro i hi
    obtain ⟨hd1, hd2⟩ := DateRange.elem_in_domain h hi
    refine ⟨?_, DateRange.toList_getElem r i hi, ?_⟩
    · simp only [DateRange.getItem]
      rw [if_neg (by omega : ¬ ((i : Nat) : Int) < 0)]
      rw [if_pos (by constructor <;> omega :
        (0 : Int) ≤ (i : Int) ∧ (i : Int) < (r.length : Int))]
      have he : r.start + (i : Int) * r.step = r.start + r.step * (i : Int) := by
        ring
      rw [he]
      rw [if_pos ⟨by omega, by omega⟩]
    · have hmem : r.containsOrd (r.start + r.step * (i : Int)) = true :=
        (DateRange.mem_toList_iff_contains hs _).mp
          ((DateRange.mem_toList r _).mpr ⟨i, hi, rfl⟩)
      simp only [DateRange.index, hmem, if_true]
      rw [add_sub_cancel_left, Int.mul_fdiv_cancel_left _ hs]
  · intro i hneg hlt
    simp only [DateRange.getItem]
    rw [if_pos hlt, if_neg (by omega : ¬ i + (r.length : Int) < 0)]
  · intro i hcase
    simp only [DateRange.getItem]
    rcases hcase with hge | hlt
    · rw [if_neg (by omega : ¬ i < 0), if_neg (by omega)]
    · rw [if_pos (by omega : i < 0), if_neg (by omega)]

theorem getitem_index_spec_witness :
    (⟨100, 110, 3⟩ : DateRange).Valid ∧
    DateRange.getItem ⟨100, 110, 3⟩ 1 = .ok 103 ∧
    DateRange.index ⟨100, 110, 3⟩ 103 = .ok 1 ∧
    DateRange.getItem ⟨100, 110, 3⟩ 7 = .error .indexError :=
  ⟨by decide,
   ((getitem_index_spec ⟨100, 110, 3⟩ (by decide)).1 1 (by decide)).1,
   ((getitem_index_spec ⟨100, 110, 3⟩ (by decide)).1 1 (by decide)).2.2,
   (getitem_index_spec ⟨100, 110, 3⟩ (by decide)).2.2 7 (by decide)⟩

/-! ## C4: the `return empty()` bug in `intersection`

`range.py` line 333 binds `empty = self.empty()` (an *instance*); lines 335
and 344 then execute `return empty()`, calling the instance — a `TypeError`
instead of the documented empty result.  The theorem evaluates the model at
the two failing inputs: an empty operand, and a misaligned offset. -/
theorem intersection_empty_or_misaligned_raises :
    DateRange.intersection DateRange.emptyRange ⟨100, 110, 1⟩
        = .error .typeError
    ∧ DateRange.intersection ⟨100, 110, 2⟩ ⟨101, 111, 4⟩
        = .error .typeError := by
  constructor <;> rfl

/-! ## `egcd` correctness -/

theorem egcdAux_spec (A B : Int) :
    ∀ (fuel a b : Nat) (x y u v : Int), a ≤ fuel →
      x * A + y * B = (b : Int) → u * A + v * B = (a : Int) →
      (egcdAux fuel a b x y u v).1 = Nat.gcd a b
        ∧ (egcdAux fuel a b x y u v).2.1 * A + (egcdAux fuel a b x y u v).2.2 * B
            = ((egcdAux fuel a b x y u v).1 : Int) := by
  intro fuel
  induction fuel with
  | zero =>
    intro a b x y u v hle hx hu
    have ha : a = 0 := by omega
    subst ha
    simp only [egcdAux, Nat.gcd_zero_left]
    exact ⟨trivial, hx⟩
  | succ fuel ih =>
    intro a b x y u v hle hx hu
    match a with
    | 0 =>
      simp only [egcdAux, Nat.gcd_zero_left]
      exact ⟨trivial, hx⟩
    | a + 1 =>
      simp only [egcdAux]
      have hmod : b % (a + 1) ≤ fuel := by
        have := @Nat.mod_lt b (a + 1) (by omega)
        omega
      have hxnew : u * A + v * B = ((a + 1 : Nat) : Int) := hu
      have hdm := Nat.div_add_mod b (a + 1)
      have hunew : (x - u * ((b / (a + 1) : Nat) : Int)) * A
          + (y - v * ((b / (a + 1) : Nat) : Int)) * B = ((b % (a + 1) : Nat) : Int) := by
        have hexp : (x - u * ((b / (a + 1) : Nat) : Int)) * A
            + (y - v * ((b / (a + 1) : Nat) : Int)) * B
            = (x * A + y * B) - ((b / (a + 1) : Nat) : Int) * (u * A + v * B) := by
          ring
        rw [hexp, hx, hu]
        have hcast : ((a + 1 : Nat) : Int) * ((b / (a + 1) : Nat) : Int)
            + ((b % (a + 1) : Nat) : Int) = (b : Int) := by
          exact_mod_cast congrArg (Nat.cast : Nat → Int) hdm
        nlinarith [hcast]
      have hrec := ih (b % (a + 1)) (a + 1) u v
        (x - u * ((b / (a + 1) : Nat) : Int)) (y - v * ((b / (a + 1) : Nat) : Int))
        hmod hxnew hunew
      refine ⟨?_, hrec.2⟩
      rw [hrec.1, ← Nat.gcd_rec]

theorem egcd_gcd (a b : Nat) : (egcd a b).1 = Nat.gcd a b :=
  (egcdAux_spec a b (a + 1) a b 0 1 1 0 (by omega) (by ring)
    (by ring)).1

theorem egcd_bezout (a b : Nat) :
    (egcd a b).2.1 * a + (egcd a b).2.2 * b = ((egcd a b).1 : Int) :=
  (egcdAux_spec a b (a + 1) a b 0 1 1 0 (by omega) (by ring)
    (by ring)).2

/-! ## CRT arithmetic lemmas for `intersection` -/

/-- `p ∣ d` and `q ∣ d` imply `A*B*g ∣ d` when `p = g*A`, `q = g*B` and
`A, B` are coprime: `A*B*g` is the lcm of `p` and `q`. -/
theorem lcm_dvd_of_dvd {g A B p q x y d : Int} (hg : g ≠ 0)
    (hA : p = g * A) (hB : q = g * B) (hcop : A * x + B * y = 1)
    (h1 : p ∣ d) (h2 : q ∣ d) : (A * B * g) ∣ d := by
  obtain ⟨m, hm⟩ := h1
  have hBA : IsCoprime B A := ⟨y, x, by linarith [hcop]⟩
  have hBdvd : B ∣ A * m := by
    have h2' : g * B ∣ g * (A * m) := by
      rw [← hB]
      have : g * (A * m) = d := by rw [hm, hA]; ring
      rw [this]
      exact h2
    exact (mul_dvd_mul_iff_left hg).mp h2'
  obtain ⟨n, hn⟩ := hBA.dvd_of_dvd_mul_left hBdvd
  exact ⟨n, by rw [hm, hA, hn]; ring⟩

/-- The congruences of the CRT combination `crt = (offset * A * (x mod B))
mod L`: it is divisible by `p` and congruent to `offset` modulo `q`,
whenever `g ∣ offset`, `p ∣ L`, `q ∣ L`. -/
theorem crt_congruences {g A B p q x y offset L : Int}
    (hA : p = g * A) (hB : q = g * B) (hoff : g ∣ offset)
    (hbz : A * x + B * y = 1) (hpL : p ∣ L) (hqL : q ∣ L) :
    p ∣ (offset * A * (x.fmod B)).fmod L
    ∧ q ∣ ((offset * A * (x.fmod B)).fmod L - offset) := by
  obtain ⟨o, rfl⟩ := hoff
  set X : Int := g * o * A * (x.fmod B) with hX
  have hpX : p ∣ X := ⟨o * x.fmod B, by rw [hX, hA]; ring⟩
  have hqX : q ∣ X - g * o := by
    obtain ⟨k, hk⟩ := fmod_dvd_self x B
    have hxm : x.fmod B = x - B * k := by omega
    refine ⟨o * (-(A * k) - y), ?_⟩
    rw [hX, hxm, hB]
    have : g * o * A * (x - B * k) - g * o
        = g * o * (A * x - 1) - g * o * (A * (B * k)) := by ring
    rw [this]
    have hx1 : A * x - 1 = -(B * y) := by linarith [hbz]
    rw [hx1]
    ring
  obtain ⟨m, hm⟩ := fmod_dvd_self X L
  have hXm : X.fmod L = X - L * m := by omega
  constructor
  · rw [hXm]
    exact dvd_sub hpX (Dvd.dvd.mul_right hpL m)
  · rw [hXm]
    have : X - L * m - g * o = (X - g * o) - L * m := by ring
    rw [this]
    exact dvd_sub hqX (Dvd.dvd.mul_right hqL m)

theorem nonneg_of_dvd_gt {L z : Int} (hL : 0 < L) (hd : L ∣ z) (hgt : -L < z) :
    0 ≤ z := by
  obtain ⟨k, rfl⟩ := hd
  rcases le_or_lt 0 k with h | h
  · positivity
  · have hk1 : k ≤ -1 := by omega
    have := mul_le_mul_of_nonneg_left hk1 (le_of_lt hL)
    omega

/-- The rounding-up behaviour of `filler` in the positive direction:
`crt + filler` is the least value `≥ max(0, offset)` in `crt + step*ℤ`. -/
theorem filler_spec_pos {L c offset : Int} (hL : 0 < L) (hc0 : 0 ≤ c) (hcL : c < L)
    (filler : Int)
    (hf : filler = if 0 < offset then
        (if (offset - c).fmod L = 0 then offset - c
         else ((offset - c).fdiv L + 1) * L)
      else 0) :
    L ∣ filler ∧ 0 ≤ filler ∧ max 0 offset ≤ c + filler
      ∧ c + filler - L < max 0 offset := by
  by_cases hoff : 0 < offset
  · rw [hf, if_pos hoff]
    have hmax : max 0 offset = offset := by omega
    by_cases hdvd : (offset - c).fmod L = 0
    · rw [if_pos hdvd, hmax]
      have hd : L ∣ offset - c := fmod_eq_zero_iff_dvd.mp hdvd
      have hge : 0 ≤ offset - c := nonneg_of_dvd_gt hL hd (by omega)
      exact ⟨hd, hge, by omega, by omega⟩
    · rw [if_neg hdvd, hmax]
      set gap : Int := offset - c with hgap
      have hid := Int.fdiv_add_fmod gap L
      have hm0 : 0 ≤ gap.fmod L := Int.fmod_nonneg' gap hL
      have hmL : gap.fmod L < L := Int.fmod_lt_of_pos gap hL
      have hmne : gap.fmod L ≠ 0 := hdvd
      have hdvd2 : L ∣ (gap.fdiv L + 1) * L := ⟨gap.fdiv L + 1, by ring⟩
      have hval : (gap.fdiv L + 1) * L = gap - gap.fmod L + L := by
        have : (gap.fdiv L + 1) * L = L * gap.fdiv L + L := by ring
        omega
      refine ⟨hdvd2, ?_, by omega, by omega⟩
      exact nonneg_of_dvd_gt hL hdvd2 (by omega)
  · rw [hf, if_neg hoff]
    have hmax : max 0 offset = 0 := by omega
    rw [hmax]
    exact ⟨dvd_zero L, le_refl 0, by omega, by omega⟩

/-- The rounding-down behaviour of `filler` in the negative direction
(`step < 0`): `crt + filler` is the greatest value `≤ min(0, offset)` in
`crt + step*ℤ`. -/
theorem filler_spec_neg {L c offset : Int} (hL : L < 0) (hc0 : c ≤ 0) (hcL : L < c)
    (filler : Int)
    (hf : filler = if offset < 0 then
        (if (offset - c).fmod L = 0 then offset - c
         else ((offset - c).fdiv L + 1) * L)
      else 0) :
    L ∣ filler ∧ filler ≤ 0 ∧ c + filler ≤ min 0 offset
      ∧ min 0 offset < c + filler - L := by
  have hL' : 0 < -L := by omega
  have heq : -filler = if 0 < -offset then
      (if (-offset - -c).fmod (-L) = 0 then -offset - -c
       else ((-offset - -c).fdiv (-L) + 1) * (-L))
    else 0 := by
    rw [hf]
    by_cases hoff : offset < 0
    · rw [if_pos hoff, if_pos (by omega : 0 < -offset)]
      have he1 : -offset - -c = -(offset - c) := by ring
      rw [he1, fmod_neg_both, fdiv_neg_both]
      by_cases hdvd : (offset - c).fmod L = 0
      · rw [if_pos hdvd, if_pos (by omega)]
      · rw [if_neg hdvd, if_neg (by omega)]
        ring
    · rw [if_neg hoff, if_neg (by omega : ¬ 0 < -offset), neg_zero]
  have hpos := @filler_spec_pos (-L) (-c) (-offset) hL'
    (by omega) (by omega) (-filler) heq
  obtain ⟨⟨k, hk⟩, hf0, hge, hlt⟩ := hpos
  have hk' : filler = L * k := by
    have : (-L) * k = -(L * k) := by ring
    omega
  refine ⟨⟨k, hk'⟩, by omega, by omega, by omega⟩

theorem DateRange.containsOrd_iff_pos {r : DateRange} (h : 0 < r.step) (o : Int) :
    r.containsOrd o = true ↔ r.start ≤ o ∧ o < r.stop ∧ r.step ∣ (o - r.start) := by
  unfold DateRange.containsOrd
  rw [if_pos h]
  simp only [Bool.and_eq_true, decide_eq_true_eq, fmod_eq_zero_iff_dvd]
  tauto

theorem DateRange.containsOrd_iff_neg {r : DateRange} (h : r.step < 0) (o : Int) :
    r.containsOrd o = true ↔ r.stop < o ∧ o ≤ r.start ∧ r.step ∣ (o - r.start) := by
  unfold DateRange.containsOrd
  rw [if_neg (by omega : ¬ 0 < r.step)]
  simp only [Bool.and_eq_true, decide_eq_true_eq, fmod_eq_zero_iff_dvd]
  tauto

/-- Set-characterization of the intersection result, positive direction:
with `S` the least point `≥ max(start₀, start₁)` in the common residue
class, the progression `S, S+L, … < min(stop₀, stop₁)` is exactly the
intersection of the two progressions. -/
theorem inter_char_pos {p q g A B x y L S sa sb ea eb : Int}
    (hg : g ≠ 0) (hA : p = g * A) (hB : q = g * B) (hbz : A * x + B * y = 1)
    (hLlcm : L = A * B * g) (hL0 : 0 < L)
    (hSa : p ∣ S - sa) (hSb : q ∣ S - sb)
    (hge : sa ≤ S ∧ sb ≤ S) (hl : S - L < sa ∨ S - L < sb)
    (t : Int) :
    (S ≤ t ∧ t < min ea eb ∧ L ∣ t - S)
      ↔ ((sa ≤ t ∧ t < ea ∧ p ∣ t - sa) ∧ (sb ≤ t ∧ t < eb ∧ q ∣ t - sb)) := by
  have hpL : p ∣ L := ⟨B, by rw [hLlcm, hA]; ring⟩
  have hqL : q ∣ L := ⟨A, by rw [hLlcm, hB]; ring⟩
  constructor
  · rintro ⟨h1, h2, h3⟩
    rw [lt_min_iff] at h2
    refine ⟨⟨by omega, h2.1, ?_⟩, ⟨by omega, h2.2, ?_⟩⟩
    · have : t - sa = (t - S) + (S - sa) := by ring
      rw [this]
      exact dvd_add (dvd_trans hpL h3) hSa
    · have : t - sb = (t - S) + (S - sb) := by ring
      rw [this]
      exact dvd_add (dvd_trans hqL h3) hSb
  · rintro ⟨⟨h1a, h2a, h3a⟩, ⟨h1b, h2b, h3b⟩⟩
    have hpd : p ∣ t - S := by
      have : t - S = (t - sa) - (S - sa) := by ring
      rw [this]
      exact dvd_sub h3a hSa
    have hqd : q ∣ t - S := by
      have : t - S = (t - sb) - (S - sb) := by ring
      rw [this]
      exact dvd_sub h3b hSb
    have hLd : L ∣ t - S := by
      rw [hLlcm]
      exact lcm_dvd_of_dvd hg hA hB hbz hpd hqd
    refine ⟨?_, lt_min h2a h2b, hLd⟩
    obtain ⟨k, hk⟩ := hLd
    rcases le_or_lt 0 k with hk0 | hk0
    · have : 0 ≤ L * k := by positivity
      omega
    · exfalso
      have hk1 : k ≤ -1 := by omega
      have := mul_le_mul_of_nonneg_left hk1 (le_of_lt hL0)
      omega

/-- Set-characterization of the intersection result, negative direction:
with `S` the greatest point `≤ min(start₀, start₁)` in the common residue
class, the descending progression `S, S-L, … > max(stop₀, stop₁)` is exactly
the intersection. -/
theorem inter_char_neg {p q g A B x y L S sa sb ea eb : Int}
    (hg : g ≠ 0) (hA : p = g * A) (hB : q = g * B) (hbz : A * x + B * y = 1)
    (hLlcm : L = A * B * g) (hL0 : 0 < L)
    (hSa : p ∣ S - sa) (hSb : q ∣ S - sb)
    (hge : S ≤ sa ∧ S ≤ sb) (hl : sa < S + L ∨ sb < S + L)
    (t : Int) :
    (max ea eb < t ∧ t ≤ S ∧ L ∣ t - S)
      ↔ ((ea < t ∧ t ≤ sa ∧ p ∣ t - sa) ∧ (eb < t ∧ t ≤ sb ∧ q ∣ t - sb)) := by
  have hpL : p ∣ L := ⟨B, by rw [hLlcm, hA]; ring⟩
  have hqL : q ∣ L := ⟨A, by rw [hLlcm, hB]; ring⟩
  constructor
  · rintro ⟨h1, h2, h3⟩
    rw [max_lt_iff] at h1
    refine ⟨⟨h1.1, by omega, ?_⟩, ⟨h1.2, by omega, ?_⟩⟩
    · have : t - sa = (t - S) + (S - sa) := by ring
      rw [this]
      exact dvd_add (dvd_trans hpL h3) hSa
    · have : t - sb = (t - S) + (S - sb) := by ring
      rw [this]
      exact dvd_add (dvd_trans hqL h3) hSb
  · rintro ⟨⟨h1a, h2a, h3a⟩, ⟨h1b, h2b, h3b⟩⟩
    have hpd : p ∣ t - S := by
      have : t - S = (t - sa) - (S - sa) := by ring
      rw [this]
      exact dvd_sub h3a hSa
    have hqd : q ∣ t - S := by
      have : t - S = (t - sb) - (S - sb) := by ring
      rw [this]
      exact dvd_sub h3b hSb
    have hLd : L ∣ t - S := by
      rw [hLlcm]
      exact lcm_dvd_of_dvd hg hA hB hbz hpd hqd
    refine ⟨max_lt h1a h1b, ?_, hLd⟩
    obtain ⟨k, hk⟩ := hLd
    rcases le_or_lt k 0 with hk0 | hk0
    · have : L * k ≤ 0 := mul_nonpos_of_nonneg_of_nonpos (le_of_lt hL0) hk0
      omega
    · exfalso
      have hk1 : 1 ≤ k := by omega
      have := mul_le_mul_of_nonneg_left hk1 (le_of_lt hL0)
      omega

/-- Positive-direction correctness of `intersection` when the element sets
actually intersect. -/
theorem intersection_spec_pos (a b : DateRange) (ha : a.Valid) (hb : b.Valid)
    (hsa : 0 < a.step) (hsb : 0 < b.step)
    (hne_a : a.length ≠ 0) (hne_b : b.length ≠ 0)
    (haligned : (b.start - a.start).fmod ((Nat.gcd a.step.natAbs b.step.natAbs : Nat) : Int) = 0)
    (hinter : ∃ t, a.containsOrd t = true ∧ b.containsOrd t = true) :
    ∃ r, DateRange.intersection a b = .ok r
      ∧ (∀ t, r.containsOrd t = (a.containsOrd t && b.containsOrd t))
      ∧ r.step = interval0 a b * interval1 a b
          * ((Nat.gcd a.step.natAbs b.step.natAbs : Nat) : Int) := by
  obtain ⟨hva1, hva2, hva3, hva4, hvas⟩ := ha
  obtain ⟨hvb1, hvb2, hvb3, hvb4, hvbs⟩ := hb
  obtain ⟨t0, hta, htb⟩ := hinter
  set g' : Nat := Nat.gcd a.step.natAbs b.step.natAbs with hg'
  have hg'pos : 0 < g' := Nat.gcd_pos_of_pos_left _ (Int.natAbs_pos.mpr hvas)
  have hgne : ((g' : Nat) : Int) ≠ 0 := by exact_mod_cast hg'pos.ne.symm
  have hG : interG a b = g' := egcd_gcd _ _
  -- `p = g * A`, `q = g * B`
  have hA : ((a.step.natAbs : Nat) : Int) = (g' : Int) * interval0 a b := by
    have h := Nat.mul_div_cancel' (Nat.gcd_dvd_left a.step.natAbs b.step.natAbs)
    unfold interval0 interStep0
    rw [hG]
    exact_mod_cast h.symm
  have hB : ((b.step.natAbs : Nat) : Int) = (g' : Int) * interval1 a b := by
    have h := Nat.mul_div_cancel' (Nat.gcd_dvd_right a.step.natAbs b.step.natAbs)
    unfold interval1 interStep0
    rw [hG]
    exact_mod_cast h.symm
  have hpa : ((a.step.natAbs : Nat) : Int) = a.step := Int.natAbs_of_nonneg (by omega)
  have hqb : ((b.step.natAbs : Nat) : Int) = b.step := Int.natAbs_of_nonneg (by omega)
  have hA' : a.step = (g' : Int) * interval0 a b := by rw [← hpa]; exact hA
  have hB' : b.step = (g' : Int) * interval1 a b := by rw [← hqb]; exact hB
  -- positivity of the intervals and of the combined step
  have hApos : 0 < interval0 a b := by
    by_contra hle
    have : (g' : Int) * interval0 a b ≤ 0 :=
      mul_nonpos_of_nonneg_of_nonpos (by positivity) (by omega)
    omega
  have hBpos : 0 < interval1 a b := by
    by_contra hle
    have : (g' : Int) * interval1 a b ≤ 0 :=
      mul_nonpos_of_nonneg_of_nonpos (by positivity) (by omega)
    omega
  have hsign_eq : interSign a = 1 := by
    unfold interSign
    rw [if_pos hsa, if_neg (by omega)]
    rfl
  have hstep_eq : interStep a b = interval0 a b * interval1 a b * (g' : Int) := by
    unfold interStep
    rw [hsign_eq, hG]
    ring
  have hL0 : 0 < interStep a b := by
    rw [hstep_eq]
    positivity
  -- the CRT residue
  have hcrt_eq : interCrt a b
      = (interOffset a b * interval0 a b * ((interX a b).fmod (interval1 a b))).fmod
          (interStep a b) := rfl
  have hc0 : 0 ≤ interCrt a b := by
    rw [hcrt_eq]; exact Int.fmod_nonneg' _ hL0
  have hcL : interCrt a b < interStep a b := by
    rw [hcrt_eq]; exact Int.fmod_lt_of_pos _ hL0
  have hoffdvd : ((g' : Nat) : Int) ∣ interOffset a b :=
    fmod_eq_zero_iff_dvd.mp haligned
  have hbz : interval0 a b * interX a b
      + interval1 a b * (egcd (interStep0 a) (interStep0 b)).2.2 = 1 := by
    have h0 := egcd_bezout (interStep0 a) (interStep0 b)
    have h1 : ((interStep0 a : Nat) : Int) = (g' : Int) * interval0 a b := hA
    have h2 : ((interStep0 b : Nat) : Int) = (g' : Int) * interval1 a b := hB
    have h3 : ((egcd (interStep0 a) (interStep0 b)).1 : Int) = (g' : Int) := by
      exact_mod_cast congrArg (fun n : Nat => (n : Int)) hG
    rw [h1, h2, h3] at h0
    apply mul_left_cancel₀ hgne
    calc (g' : Int) * (interval0 a b * interX a b
          + interval1 a b * (egcd (interStep0 a) (interStep0 b)).2.2)
        = interX a b * ((g' : Int) * interval0 a b)
          + (egcd (interStep0 a) (interStep0 b)).2.2 * ((g' : Int) * interval1 a b) := by
          ring
      _ = (g' : Int) := h0
      _ = (g' : Int) * 1 := by ring
  have hpL : a.step ∣ interStep a b :=
    ⟨interval1 a b, by rw [hstep_eq, hA']; ring⟩
  have hqL : b.step ∣ interStep a b :=
    ⟨interval0 a b, by rw [hstep_eq, hB']; ring⟩
  have hcong := @crt_congruences (g' : Int) (interval0 a b)
    (interval1 a b) a.step b.step (interX a b)
    ((egcd (interStep0 a) (interStep0 b)).2.2)
    (interOffset a b) (interStep a b)
    hA' hB' hoffdvd hbz hpL hqL
  rw [← hcrt_eq] at hcong
  obtain ⟨hcrt_p, hcrt_q⟩ := hcong
  -- filler
  have hfiller_eq : interFiller a b = if 0 < interOffset a b then
      (if (interOffset a b - interCrt a b).fmod (interStep a b) = 0 then
        interOffset a b - interCrt a b
       else ((interOffset a b - interCrt a b).fdiv (interStep a b) + 1)
          * interStep a b)
    else 0 := by
    unfold interFiller
    rw [hsign_eq]
    exact if_congr (by omega) rfl rfl
  obtain ⟨hfd, hf0, hfge, hflt⟩ :=
    filler_spec_pos hL0 hc0 hcL (interFiller a b) hfiller_eq
  -- the start of the result
  set S : Int := a.start + interCrt a b + interFiller a b with hS
  have hoff_def : interOffset a b = b.start - a.start := rfl
  have hSa : a.step ∣ S - a.start := by
    have : S - a.start = interCrt a b + interFiller a b := by rw [hS]; ring
    rw [this]
    exact dvd_add hcrt_p (dvd_trans hpL hfd)
  have hSb : b.step ∣ S - b.start := by
    have : S - b.start = (interCrt a b - interOffset a b) + interFiller a b := by
      rw [hS, hoff_def]; ring
    rw [this]
    exact dvd_add hcrt_q (dvd_trans hqL hfd)
  have hge : a.start ≤ S ∧ b.start ≤ S := by
    rw [hoff_def] at hfge
    constructor <;> omega
  have hl : S - interStep a b < a.start ∨ S - interStep a b < b.start := by
    rw [hoff_def] at hflt
    omega
  -- characterizations of the two operands at a common element
  have hta' := (DateRange.containsOrd_iff_pos hsa t0).mp hta
  have htb' := (DateRange.containsOrd_iff_pos hsb t0).mp htb
  have hchar := fun t => @inter_char_pos a.step b.step
    (g' : Int) (interval0 a b) (interval1 a b)
    (interX a b) ((egcd (interStep0 a) (interStep0 b)).2.2)
    (interStep a b) S a.start b.start
    a.stop b.stop
    hgne hA' hB' hbz hstep_eq hL0 hSa hSb hge hl t
  have ht0 := (hchar t0).mpr ⟨hta', htb'⟩
  have hSt0 : S ≤ t0 := ht0.1
  have ht0stop : t0 < a.stop ∧ t0 < b.stop := by
    have h2 := ht0.2.1
    rw [lt_min_iff] at h2
    exact h2
  have hub : a.start + interCrt a b + interFiller a b ≤ maxOrd := by
    simp only [maxOrd] at hva4 ⊢
    omega
  have hadd1 : dateAddE a.start (interCrt a b)
      = .ok (a.start + interCrt a b) := by
    unfold dateAddE
    rw [if_pos ⟨by omega, by simp only [maxOrd] at hub ⊢; omega⟩]
  have hadd2 : dateAddE (a.start + interCrt a b) (interFiller a b)
      = .ok (a.start + interCrt a b + interFiller a b) := by
    unfold dateAddE
    rw [if_pos ⟨by omega, by simp only [maxOrd] at hub ⊢; omega⟩]
  have hstop_eq : interStop a b = min a.stop b.stop := by
    unfold interStop
    rw [hsign_eq, if_pos (by omega : (0 : Int) < 1)]
  refine ⟨⟨S, interStop a b, interStep a b⟩, ?_, ?_, ?_⟩
  · unfold DateRange.intersection
    rw [if_neg (by simp [hsa, hsb] : ¬ (decide (0 < a.step)) ≠ (decide (0 < b.step)))]
    rw [if_neg (by omega : ¬ (a.length = 0 ∨ b.length = 0))]
    rw [if_neg (by
      rw [hG]
      exact not_not_intro haligned)]
    simp only [hadd1, hadd2]
  · intro t
    have hLr : (0 : Int) < (⟨S, interStop a b, interStep a b⟩ : DateRange).step := hL0
    rw [Bool.eq_iff_iff, Bool.and_eq_true]
    rw [DateRange.containsOrd_iff_pos hLr, DateRange.containsOrd_iff_pos hsa,
      DateRange.containsOrd_iff_pos hsb]
    have := hchar t
    rw [hstop_eq]
    exact this
  · rw [hstep_eq]

/-- Negative-direction correctness of `intersection` when the element sets
actually intersect. -/
theorem intersection_spec_neg (a b : DateRange) (ha : a.Valid) (hb : b.Valid)
    (hsa : a.step < 0) (hsb : b.step < 0)
    (hne_a : a.length ≠ 0) (hne_b : b.length ≠ 0)
    (haligned : (b.start - a.start).fmod ((Nat.gcd a.step.natAbs b.step.natAbs : Nat) : Int) = 0)
    (hinter : ∃ t, a.containsOrd t = true ∧ b.containsOrd t = true) :
    ∃ r, DateRange.intersection a b = .ok r
      ∧ (∀ t, r.containsOrd t = (a.containsOrd t && b.containsOrd t))
      ∧ r.step = -(interval0 a b * interval1 a b
          * ((Nat.gcd a.step.natAbs b.step.natAbs : Nat) : Int)) := by
  obtain ⟨hva1, hva2, hva3, hva4, hvas⟩ := ha
  obtain ⟨hvb1, hvb2, hvb3, hvb4, hvbs⟩ := hb
  obtain ⟨t0, hta, htb⟩ := hinter
  set g' : Nat := Nat.gcd a.step.natAbs b.step.natAbs with hg'
  have hg'pos : 0 < g' := Nat.gcd_pos_of_pos_left _ (Int.natAbs_pos.mpr hvas)
  have hgne : ((g' : Nat) : Int) ≠ 0 := by exact_mod_cast hg'pos.ne.symm
  have hG : interG a b = g' := egcd_gcd _ _
  have hA : ((a.step.natAbs : Nat) : Int) = (g' : Int) * interval0 a b := by
    have h := Nat.mul_div_cancel' (Nat.gcd_dvd_left a.step.natAbs b.step.natAbs)
    unfold interval0 interStep0
    rw [hG]
    exact_mod_cast h.symm
  have hB : ((b.step.natAbs : Nat) : Int) = (g' : Int) * interval1 a b := by
    have h := Nat.mul_div_cancel' (Nat.gcd_dvd_right a.step.natAbs b.step.natAbs)
    unfold interval1 interStep0
    rw [hG]
    exact_mod_cast h.symm
  have hpa : ((a.step.natAbs : Nat) : Int) = -a.step := by
    rw [← Int.natAbs_neg]
    exact Int.natAbs_of_nonneg (by omega)
  have hqb : ((b.step.natAbs : Nat) : Int) = -b.step := by
    rw [← Int.natAbs_neg]
    exact Int.natAbs_of_nonneg (by omega)
  have hA' : -a.step = (g' : Int) * interval0 a b := by rw [← hpa]; exact hA
  have hB' : -b.step = (g' : Int) * interval1 a b := by rw [← hqb]; exact hB
  have hApos : 0 < interval0 a b := by
    by_contra hle
    have : (g' : Int) * interval0 a b ≤ 0 :=
      mul_nonpos_of_nonneg_of_nonpos (by positivity) (by omega)
    omega
  have hBpos : 0 < interval1 a b := by
    by_contra hle
    have : (g' : Int) * interval1 a b ≤ 0 :=
      mul_nonpos_of_nonneg_of_nonpos (by positivity) (by omega)
    omega
  have hsign_eq : interSign a = -1 := by
    unfold interSign
    rw [if_neg (by omega), if_pos hsa]
    decide
  set Lp : Int := interval0 a b * interval1 a b * (g' : Int) with hLp
  have hLp0 : 0 < Lp := by rw [hLp]; positivity
  have hstep_eq : interStep a b = -Lp := by
    unfold interStep
    rw [hsign_eq, hG, hLp]
    ring
  have hLneg : interStep a b < 0 := by omega
  have hcrt_eq : interCrt a b
      = (interOffset a b * interval0 a b * ((interX a b).fmod (interval1 a b))).fmod
          (interStep a b) := rfl
  have hc0 : interCrt a b ≤ 0 := by
    rw [hcrt_eq]; exact fmod_nonpos_of_neg _ hLneg
  have hcL : interStep a b < interCrt a b := by
    rw [hcrt_eq]; exact lt_fmod_of_neg _ hLneg
  have hoffdvd : ((g' : Nat) : Int) ∣ interOffset a b :=
    fmod_eq_zero_iff_dvd.mp haligned
  have hbz : interval0 a b * interX a b
      + interval1 a b * (egcd (interStep0 a) (interStep0 b)).2.2 = 1 := by
    have h0 := egcd_bezout (interStep0 a) (interStep0 b)
    have h1 : ((interStep0 a : Nat) : Int) = (g' : Int) * interval0 a b := hA
    have h2 : ((interStep0 b : Nat) : Int) = (g' : Int) * interval1 a b := hB
    have h3 : ((egcd (interStep0 a) (interStep0 b)).1 : Int) = (g' : Int) := by
      exact_mod_cast congrArg (fun n : Nat => (n : Int)) hG
    rw [h1, h2, h3] at h0
    apply mul_left_cancel₀ hgne
    calc (g' : Int) * (interval0 a b * interX a b
          + interval1 a b * (egcd (interStep0 a) (interStep0 b)).2.2)
        = interX a b * ((g' : Int) * interval0 a b)
          + (egcd (interStep0 a) (interStep0 b)).2.2 * ((g' : Int) * interval1 a b) := by
          ring
      _ = (g' : Int) := h0
      _ = (g' : Int) * 1 := by ring
  have hpL : -a.step ∣ interStep a b :=
    ⟨-(interval1 a b), by rw [hstep_eq, hLp, hA']; ring⟩
  have hqL : -b.step ∣ interStep a b :=
    ⟨-(interval0 a b), by rw [hstep_eq, hLp, hB']; ring⟩
  have hcong := @crt_congruences (g' : Int) (interval0 a b)
    (interval1 a b) (-a.step) (-b.step) (interX a b)
    ((egcd (interStep0 a) (interStep0 b)).2.2)
    (interOffset a b) (interStep a b)
    hA' hB' hoffdvd hbz hpL hqL
  rw [← hcrt_eq] at hcong
  obtain ⟨hcrt_p, hcrt_q⟩ := hcong
  have hfiller_eq : interFiller a b = if interOffset a b < 0 then
      (if (interOffset a b - interCrt a b).fmod (interStep a b) = 0 then
        interOffset a b - interCrt a b
       else ((interOffset a b - interCrt a b).fdiv (interStep a b) + 1)
          * interStep a b)
    else 0 := by
    unfold interFiller
    rw [hsign_eq]
    exact if_congr (by omega) rfl rfl
  obtain ⟨hfd, hf0, hfge, hflt⟩ :=
    filler_spec_neg hLneg hc0 hcL (interFiller a b) hfiller_eq
  set S : Int := a.start + interCrt a b + interFiller a b with hS
  have hoff_def : interOffset a b = b.start - a.start := rfl
  have hSa : -a.step ∣ S - a.start := by
    have : S - a.start = interCrt a b + interFiller a b := by rw [hS]; ring
    rw [this]
    exact dvd_add hcrt_p (dvd_trans hpL hfd)
  have hSb : -b.step ∣ S - b.start := by
    have : S - b.start = (interCrt a b - interOffset a b) + interFiller a b := by
      rw [hS, hoff_def]; ring
    rw [this]
    exact dvd_add hcrt_q (dvd_trans hqL hfd)
  have hge : S ≤ a.start ∧ S ≤ b.start := by
    rw [hoff_def] at hfge
    constructor <;> omega
  have hflt' : min 0 (interOffset a b) < interCrt a b + interFiller a b + Lp := by
    rw [hstep_eq] at hflt
    omega
  have hl : a.start < S + Lp ∨ b.start < S + Lp := by
    rw [hoff_def] at hflt'
    omega
  have hchar0 := fun t => @inter_char_neg (-a.step) (-b.step)
    (g' : Int) (interval0 a b) (interval1 a b)
    (interX a b) ((egcd (interStep0 a) (interStep0 b)).2.2)
    Lp S a.start b.start
    a.stop b.stop
    hgne hA' hB' hbz hLp hLp0 hSa hSb hge hl t
  have hchar : ∀ t, (max a.stop b.stop < t ∧ t ≤ S ∧ interStep a b ∣ t - S)
      ↔ ((a.stop < t ∧ t ≤ a.start ∧ a.step ∣ t - a.start)
        ∧ (b.stop < t ∧ t ≤ b.start ∧ b.step ∣ t - b.start)) := by
    intro t
    rw [hstep_eq, neg_dvd]
    rw [hchar0 t]
    constructor
    · rintro ⟨⟨u1, u2, u3⟩, ⟨v1, v2, v3⟩⟩
      exact ⟨⟨u1, u2, neg_dvd.mp u3⟩, ⟨v1, v2, neg_dvd.mp v3⟩⟩
    · rintro ⟨⟨u1, u2, u3⟩, ⟨v1, v2, v3⟩⟩
      exact ⟨⟨u1, u2, neg_dvd.mpr u3⟩, ⟨v1, v2, neg_dvd.mpr v3⟩⟩
  have hta2 := (DateRange.containsOrd_iff_neg hsa t0).mp hta
  have htb2 := (DateRange.containsOrd_iff_neg hsb t0).mp htb
  have ht0 := (hchar t0).mpr ⟨hta2, htb2⟩
  have ht0S : t0 ≤ S := ht0.2.1
  have ht0stop : a.stop < t0 ∧ b.stop < t0 := by
    have h1 := ht0.1
    rw [max_lt_iff] at h1
    exact h1
  have hub : 1 ≤ S ∧ S ≤ maxOrd := by
    simp only [maxOrd] at hva2 ⊢
    omega
  have hadd1 : dateAddE a.start (interCrt a b)
      = .ok (a.start + interCrt a b) := by
    unfold dateAddE
    rw [if_pos ⟨by omega, by simp only [maxOrd] at hva2 ⊢; omega⟩]
  have hadd2 : dateAddE (a.start + interCrt a b) (interFiller a b)
      = .ok (a.start + interCrt a b + interFiller a b) := by
    unfold dateAddE
    rw [if_pos ⟨by omega, by simp only [maxOrd] at hub ⊢; omega⟩]
  have hstop_eq : interStop a b = max a.stop b.stop := by
    unfold interStop
    rw [hsign_eq, if_neg (by omega : ¬ (0 : Int) < -1)]
  refine ⟨⟨S, interStop a b, interStep a b⟩, ?_, ?_, ?_⟩
  · unfold DateRange.intersection
    rw [if_neg (by simp [show ¬ 0 < a.step by omega, show ¬ 0 < b.step by omega] :
      ¬ (decide (0 < a.step)) ≠ (decide (0 < b.step)))]
    rw [if_neg (by omega : ¬ (a.length = 0 ∨ b.length = 0))]
    rw [if_neg (by
      rw [hG]
      exact not_not_intro haligned)]
    simp only [hadd1, hadd2]
  · intro t
    have hLr : (⟨S, interStop a b, interStep a b⟩ : DateRange).step < 0 := hLneg
    rw [Bool.eq_iff_iff, Bool.and_eq_true]
    rw [DateRange.containsOrd_iff_neg hLr, DateRange.containsOrd_iff_neg hsa,
      DateRange.containsOrd_iff_neg hsb]
    have := hchar t
    rw [hstop_eq]
    exact this
  · rw [hstep_eq, hLp]

theorem interval0_eq (a b : DateRange) :
    interval0 a b
      = ((a.step.natAbs / Nat.gcd a.step.natAbs b.step.natAbs : Nat) : Int) := by
  unfold interval0 interG interStep0
  rw [egcd_gcd]

theorem interval1_eq (a b : DateRange) :
    interval1 a b
      = ((b.step.natAbs / Nat.gcd a.step.natAbs b.step.natAbs : Nat) : Int) := by
  unfold interval1 interG interStep0
  rw [egcd_gcd]

/-- C1, amended: for two non-empty `DateRange`s with same-sign steps, start
offset divisible by `gcd(|step₀|, |step₁|)`, *and nonempty element-set
intersection*, `intersection` returns a `DateRange` whose element set is the
set intersection of the two element sets, with combined step
`(step0/g) * (step1/g) * g` signed to match the common direction. -/
theorem intersection_elements (a b : DateRange) (ha : a.Valid) (hb : b.Valid)
    (hsign : 0 < a.step ↔ 0 < b.step)
    (hne_a : a.length ≠ 0) (hne_b : b.length ≠ 0)
    (haligned : (b.start - a.start).fmod
      ((Nat.gcd a.step.natAbs b.step.natAbs : Nat) : Int) = 0)
    (hinter : ∃ t, a.containsOrd t = true ∧ b.containsOrd t = true) :
    ∃ r, DateRange.intersection a b = .ok r
      ∧ (∀ t, r.containsOrd t = (a.containsOrd t && b.containsOrd t))
      ∧ r.step = ((a.step.natAbs / Nat.gcd a.step.natAbs b.step.natAbs : Nat) : Int)
          * ((b.step.natAbs / Nat.gcd a.step.natAbs b.step.natAbs : Nat) : Int)
          * ((Nat.gcd a.step.natAbs b.step.natAbs : Nat) : Int)
          * (if 0 < a.step then 1 else -1) := by
  have hsint : a.step ≠ 0 := ha.2.2.2.2
  have hsbnt : b.step ≠ 0 := hb.2.2.2.2
  rcases lt_or_gt_of_ne hsint with hneg | hpos
  · have hbneg : b.step < 0 := by
      rcases lt_or_gt_of_ne hsbnt with h | h
      · exact h
      · exact absurd (hsign.mpr h) (by omega)
    obtain ⟨r, h1, h2, h3⟩ := intersection_spec_neg a b ha hb hneg hbneg
      hne_a hne_b haligned hinter
    refine ⟨r, h1, h2, ?_⟩
    rw [h3, if_neg (by omega), interval0_eq, interval1_eq]
    ring
  · have hbpos : 0 < b.step := hsign.mp hpos
    obtain ⟨r, h1, h2, h3⟩ := intersection_spec_pos a b ha hb hpos hbpos
      hne_a hne_b haligned hinter
    refine ⟨r, h1, h2, ?_⟩
    rw [h3, if_pos hpos, interval0_eq, interval1_eq]
    ring

/-- C1 counterexample: the claim *as stated* (without the nonempty-
intersection hypothesis) fails.  `{3652058}` (step 2) and `{3652057}`
(step 3) are non-empty, same-direction, and their start offset `-1` is
divisible by `gcd(2,3) = 1`, yet `intersection` raises `ValueError` (from
`Date.fromordinal`: `self.start + crt` = ordinal 3652060 is past
`Date.max`) instead of returning the empty `DateRange` the claim
requires. -/
theorem intersection_claim_cex :
    (⟨3652058, 3652059, 2⟩ : DateRange).Valid
    ∧ (⟨3652057, 3652059, 3⟩ : DateRange).Valid
    ∧ (⟨3652058, 3652059, 2⟩ : DateRange).length ≠ 0
    ∧ (⟨3652057, 3652059, 3⟩ : DateRange).length ≠ 0
    ∧ (0 < (⟨3652058, 3652059, 2⟩ : DateRange).step
        ↔ 0 < (⟨3652057, 3652059, 3⟩ : DateRange).step)
    ∧ ((3652057 : Int) - 3652058).fmod
        ((Nat.gcd (Int.natAbs 2) (Int.natAbs 3) : Nat) : Int) = 0
    ∧ ¬ ∃ r, DateRange.intersection ⟨3652058, 3652059, 2⟩ ⟨3652057, 3652059, 3⟩
        = .ok r := by
  refine ⟨by decide, by decide, by decide, by decide, by decide, by decide, ?_⟩
  rintro ⟨r, hr⟩
  rw [show DateRange.intersection ⟨3652058, 3652059, 2⟩ ⟨3652057, 3652059, 3⟩
      = .error .valueError from rfl] at hr
  exact Except.noConfusion hr

theorem intersection_elements_witness :
    (⟨100, 120, 2⟩ : DateRange).Valid ∧ (⟨102, 130, 3⟩ : DateRange).Valid
    ∧ (∃ t, DateRange.containsOrd ⟨100, 120, 2⟩ t = true
        ∧ DateRange.containsOrd ⟨102, 130, 3⟩ t = true)
    ∧ (∃ r, DateRange.intersection ⟨100, 120, 2⟩ ⟨102, 130, 3⟩ = .ok r
        ∧ (∀ t, r.containsOrd t
            = (DateRange.containsOrd ⟨100, 120, 2⟩ t
              && DateRange.containsOrd ⟨102, 130, 3⟩ t))
        ∧ r.step = ((Int.natAbs 2 / Nat.gcd (Int.natAbs 2) (Int.natAbs 3) : Nat) : Int)
            * ((Int.natAbs 3 / Nat.gcd (Int.natAbs 2) (Int.natAbs 3) : Nat) : Int)
            * ((Nat.gcd (Int.natAbs 2) (Int.natAbs 3) : Nat) : Int)
            * (if (0 : Int) < 2 then 1 else -1)) :=
  ⟨by decide, by decide, ⟨102, by decide, by decide⟩,
    intersection_elements ⟨100, 120, 2⟩ ⟨102, 130, 3⟩ (by decide) (by decide)
      (by decide) (by decide) (by decide) (by decide)
      ⟨102, by decide, by decide⟩⟩

/-! ## The proleptic-Gregorian calendar of the `Date` collaborator

`str(Date)` renders `yyyymmdd` through `ordinal → (year, month, day)`
(`datetime.date.fromordinal` / `strftime`), and parsing goes back through
`(year, month, day) → ordinal` (`strptime` / `toordinal`).  The conversions
below follow CPython's `_ymd2ord`/`_days_before_year`/`_days_in_month`;
`ord2ymd` computes the inverse by monotone search. -/

/-- `_is_leap` of CPython `datetime`. -/
def isLeap (y : Nat) : Bool :=
  y % 4 == 0 && (y % 100 != 0 || y % 400 == 0)

/-- `_days_in_month` of CPython `datetime`. -/
def daysInMonth (y m : Nat) : Nat :=
  if m = 2 then (if isLeap y then 29 else 28)
  else if m = 4 ∨ m = 6 ∨ m = 9 ∨ m = 11 then 30 else 31

/-- `_days_before_month`: days in year `y` preceding month `m`. -/
def daysBeforeMonth (y : Nat) : Nat → Nat
  | 0 => 0
  | 1 => 0
  | m + 2 => daysBeforeMonth y (m + 1) + daysInMonth y (m + 1)

/-- `_days_before_year`: days before January 1st of year `y`. -/
def daysBeforeYear (y : Nat) : Nat :=
  365 * (y - 1) + (y - 1) / 4 - (y - 1) / 100 + (y - 1) / 400

def daysInYear (y : Nat) : Nat := 365 + (if isLeap y then 1 else 0)

/-- `_ymd2ord` of CPython `datetime` (`date.toordinal`). -/
def ymd2ord (y m d : Nat) : Nat := daysBeforeYear y + daysBeforeMonth y m + d

/-- Year search for `ord2ymd`: advance `y` by `stride` years while day `n`
still lies past the end of the advanced block (mirrors the 400-year-cycle /
single-year block structure of CPython's `_ord2ymd`). -/
def findStride (n stride : Nat) : Nat → Nat → Nat
  | 0, y => y
  | fuel + 1, y =>
      if daysBeforeYear (y + stride) < n then findStride n stride fuel (y + stride)
      else y

/-- Month search for `ord2ymd`. -/
def findMonthAux (y rem : Nat) : Nat → Nat → Nat
  | 0, m => m
  | fuel + 1, m =>
      if m < 12 ∧ daysBeforeMonth y (m + 1) < rem then
        findMonthAux y rem fuel (m + 1)
      else m

/-- `date.fromordinal`'s `ordinal → (year, month, day)` conversion. -/
def ord2ymd (n : Nat) : Nat × Nat × Nat :=
  let y := findStride n 1 19 (findStride n 20 19 (findStride n 400 25 1))
  let rem := n - daysBeforeYear y
  let m := findMonthAux y rem 11 1
  (y, m, rem - daysBeforeMonth y m)

theorem isLeap_iff (y : Nat) :
    isLeap y = true ↔ (y % 4 = 0 ∧ (y % 100 ≠ 0 ∨ y % 400 = 0)) := by
  unfold isLeap
  simp

set_option maxHeartbeats 1000000 in
theorem daysBeforeYear_succ (y : Nat) (hy : 1 ≤ y) :
    daysBeforeYear (y + 1) = daysBeforeYear y + daysInYear y := by
  unfold daysBeforeYear daysInYear
  by_cases h : isLeap y = true
  · rw [if_pos h]
    rw [isLeap_iff] at h
    omega
  · rw [if_neg h]
    rw [isLeap_iff] at h
    omega

theorem daysBeforeYear_mono : ∀ {y y' : Nat}, 1 ≤ y → y ≤ y' →
    daysBeforeYear y ≤ daysBeforeYear y' := by
  intro y y' hy hle
  induction y' with
  | zero => omega
  | succ n ih =>
    rcases Nat.lt_or_ge y (n + 1) with h | h
    · have h1 : 1 ≤ n := by omega
      have h2 := ih (by omega)
      rw [daysBeforeYear_succ n h1]
      omega
    · have : y = n + 1 := by omega
      subst this
      exact le_refl _

theorem daysBeforeMonth_succ (y m : Nat) (hm : 1 ≤ m) :
    daysBeforeMonth y (m + 1) = daysBeforeMonth y m + daysInMonth y m := by
  obtain ⟨m', rfl⟩ : ∃ m', m = m' + 1 := ⟨m - 1, by omega⟩
  rfl

theorem daysBeforeMonth_13 (y : Nat) :
    daysBeforeMonth y 13 = daysInYear y := by
  by_cases h : isLeap y = true
  · simp [daysBeforeMonth, daysInMonth, daysInYear, h]
  · simp only [Bool.not_eq_true] at h
    simp [daysBeforeMonth, daysInMonth, daysInYear, h]

theorem findStride_spec (n stride : Nat) : ∀ (fuel y : Nat),
    daysBeforeYear y < n → n ≤ daysBeforeYear (y + stride * fuel + stride) →
    daysBeforeYear (findStride n stride fuel y) < n
      ∧ n ≤ daysBeforeYear (findStride n stride fuel y + stride)
      ∧ y ≤ findStride n stride fuel y := by
  intro fuel
  induction fuel with
  | zero =>
    intro y h1 h2
    unfold findStride
    refine ⟨h1, ?_, le_refl y⟩
    have he : y + stride * 0 + stride = y + stride := by omega
    rw [he] at h2
    exact h2
  | succ fuel ih =>
    intro y h1 h2
    unfold findStride
    by_cases hlt : daysBeforeYear (y + stride) < n
    · rw [if_pos hlt]
      have h2' : n ≤ daysBeforeYear ((y + stride) + stride * fuel + stride) := by
        have he : (y + stride) + stride * fuel + stride
            = y + stride * (fuel + 1) + stride := by ring
        rw [he]
        exact h2
      have := ih (y + stride) hlt h2'
      exact ⟨this.1, this.2.1, by omega⟩
    · rw [if_neg hlt]
      exact ⟨h1, by omega, le_refl y⟩

theorem findMonthAux_spec (y rem : Nat) : ∀ (fuel m : Nat), 1 ≤ m →
    m + fuel = 12 → daysBeforeMonth y m < rem →
    1 ≤ findMonthAux y rem fuel m ∧ findMonthAux y rem fuel m ≤ 12
      ∧ daysBeforeMonth y (findMonthAux y rem fuel m) < rem
      ∧ (findMonthAux y rem fuel m = 12
          ∨ rem ≤ daysBeforeMonth y (findMonthAux y rem fuel m + 1)) := by
  intro fuel
  induction fuel with
  | zero =>
    intro m hm h12 hlt
    unfold findMonthAux
    exact ⟨hm, by omega, hlt, Or.inl (by omega)⟩
  | succ fuel ih =>
    intro m hm h12 hlt
    unfold findMonthAux
    by_cases hc : m < 12 ∧ daysBeforeMonth y (m + 1) < rem
    · rw [if_pos hc]
      exact ih (m + 1) (by omega) (by omega) hc.2
    · rw [if_neg hc]
      have hm12 : m < 12 := by omega
      have : ¬ daysBeforeMonth y (m + 1) < rem := fun h => hc ⟨hm12, h⟩
      exact ⟨hm, by omega, hlt, Or.inr (by omega)⟩

theorem ord2ymd_spec (n : Nat) (h1 : 1 ≤ n) (h2 : n ≤ 3652059) :
    1 ≤ (ord2ymd n).1 ∧ (ord2ymd n).1 ≤ 9999
      ∧ 1 ≤ (ord2ymd n).2.1 ∧ (ord2ymd n).2.1 ≤ 12
      ∧ 1 ≤ (ord2ymd n).2.2
      ∧ (ord2ymd n).2.2 ≤ daysInMonth (ord2ymd n).1 (ord2ymd n).2.1
      ∧ ymd2ord (ord2ymd n).1 (ord2ymd n).2.1 (ord2ymd n).2.2 = n := by
  have hdby1 : daysBeforeYear 1 = 0 := rfl
  have hy0 := findStride_spec n 400 25 1 (by omega)
    (by
      have : (3652059 : Nat) ≤ daysBeforeYear (1 + 400 * 25 + 400) := by
        norm_num [daysBeforeYear]
      omega)
  obtain ⟨hy0lt, hy0ge, hy01⟩ := hy0
  have hy20 := findStride_spec n 20 19 (findStride n 400 25 1) hy0lt
    (by
      have he : findStride n 400 25 1 + 20 * 19 + 20
          = findStride n 400 25 1 + 400 := by omega
      rw [he]
      exact hy0ge)
  obtain ⟨hy2lt, hy2ge, hy21⟩ := hy20
  have hy := findStride_spec n 1 19 (findStride n 20 19 (findStride n 400 25 1))
    hy2lt
    (by
      have he : findStride n 20 19 (findStride n 400 25 1) + 1 * 19 + 1
          = findStride n 20 19 (findStride n 400 25 1) + 20 := by omega
      rw [he]
      exact hy2ge)
  set y := findStride n 1 19 (findStride n 20 19 (findStride n 400 25 1))
    with hydef
  obtain ⟨hylt, hyge', hy1'⟩ := hy
  have hyge : n ≤ daysBeforeYear (y + 1) := hyge'
  have hy1 : 1 ≤ y := le_trans hy01 (le_trans hy21 hy1')
  have hy9999 : y ≤ 9999 := by
    by_contra hgt
    have h10000 : (10000 : Nat) ≤ y := by omega
    have : daysBeforeYear 10000 ≤ daysBeforeYear y :=
      daysBeforeYear_mono (by omega) h10000
    have hdby10000 : daysBeforeYear 10000 = 3652059 := by
      norm_num [daysBeforeYear]
    omega
  set rem := n - daysBeforeYear y with hremdef
  have hrem1 : 1 ≤ rem := by omega
  have hremle : rem ≤ daysInYear y := by
    have := daysBeforeYear_succ y hy1
    omega
  have hm := findMonthAux_spec y rem 11 1 (by omega) (by omega)
    (by show daysBeforeMonth y 1 < rem; unfold daysBeforeMonth; omega)
  set m := findMonthAux y rem 11 1 with hmdef
  obtain ⟨hm1, hm12, hmlt, hmor⟩ := hm
  have hub : rem ≤ daysBeforeMonth y m + daysInMonth y m := by
    rcases hmor with h12 | hle
    · have h13 := daysBeforeMonth_13 y
      have hsucc : daysBeforeMonth y 13
          = daysBeforeMonth y 12 + daysInMonth y 12 :=
        daysBeforeMonth_succ y 12 (by omega)
      rw [h12]
      omega
    · have := daysBeforeMonth_succ y m hm1
      omega
  show 1 ≤ y ∧ y ≤ 9999 ∧ 1 ≤ m ∧ m ≤ 12 ∧ 1 ≤ rem - daysBeforeMonth y m
    ∧ rem - daysBeforeMonth y m ≤ daysInMonth y m
    ∧ ymd2ord y m (rem - daysBeforeMonth y m) = n
  refine ⟨hy1, hy9999, hm1, hm12, by omega, by omega, ?_⟩
  unfold ymd2ord
  omega

/-! ## Decimal digit strings

Python strings are modelled as `List Char`.  `natStr` renders a natural
number in decimal (as `str`/`%d` does), `digitsVal` reads digits back. -/

def digitChar (d : Nat) : Char := Char.ofNat (48 + d)

def natToRevDigits : Nat → Nat → List Char
  | 0, _ => []
  | fuel + 1, n =>
      if n < 10 then [digitChar n]
      else digitChar (n % 10) :: natToRevDigits fuel (n / 10)

/-- Decimal rendering of a natural number (`str(n)` for `n ≥ 0`). -/
def natStr (n : Nat) : List Char := (natToRevDigits (n + 1) n).reverse

/-- Decimal rendering of an int (`str` of a Python int). -/
def intStr (n : Int) : List Char :=
  if n < 0 then '-' :: natStr n.natAbs else natStr n.toNat

def digitVal (c : Char) : Nat := c.toNat - 48

def digitsVal (cs : List Char) : Nat :=
  cs.foldl (fun a c => 10 * a + digitVal c) 0

def isDigitChar (c : Char) : Bool :=
  decide (48 ≤ c.toNat) && decide (c.toNat ≤ 57)

/-- Zero-pad on the left to width `w` (`'0' * max(0, w - len(s)) + s`). -/
def padZeros (w : Nat) (s : List Char) : List Char :=
  List.replicate (w - s.length) '0' ++ s

/-- Python `str.split(sep)` for a single-char separator: split at every
occurrence, keeping empty pieces. -/
def splitChar (sep : Char) : List Char → List (List Char)
  | [] => [[]]
  | c :: cs =>
      if c = sep then [] :: splitChar sep cs
      else
        match splitChar sep cs with
        | [] => [[c]]
        | h :: t => (c :: h) :: t

theorem digitsVal_cons (c : Char) (cs : List Char) (a : Nat) :
    List.foldl (fun a c => 10 * a + digitVal c) a (c :: cs)
      = List.foldl (fun a c => 10 * a + digitVal c) (10 * a + digitVal c) cs := rfl

theorem digitsVal_append_singleton (xs : List Char) (c : Char) :
    digitsVal (xs ++ [c]) = 10 * digitsVal xs + digitVal c := by
  unfold digitsVal
  rw [List.foldl_append]
  rfl

theorem digitVal_digitChar {d : Nat} (h : d < 10) :
    digitVal (digitChar d) = d := by
  interval_cases d <;> decide

theorem isDigitChar_digitChar {d : Nat} (h : d < 10) :
    isDigitChar (digitChar d) = true := by
  interval_cases d <;> decide

theorem natToRevDigits_spec : ∀ (fuel n : Nat), n < 10 ^ fuel → 1 ≤ fuel →
    digitsVal (natToRevDigits fuel n).reverse = n
      ∧ (∀ c ∈ natToRevDigits fuel n, isDigitChar c = true)
      ∧ 1 ≤ (natToRevDigits fuel n).length
      ∧ (∀ k, n < 10 ^ k → 1 ≤ k → (natToRevDigits fuel n).length ≤ k) := by
  intro fuel
  induction fuel with
  | zero => omega
  | succ fuel ih =>
    intro n hlt _
    unfold natToRevDigits
    by_cases hn : n < 10
    · rw [if_pos hn]
      refine ⟨?_, ?_, by simp, ?_⟩
      · show digitsVal [digitChar n] = n
        unfold digitsVal
        simp [digitVal_digitChar hn]
      · intro c hc
        simp only [List.mem_singleton] at hc
        subst hc
        exact isDigitChar_digitChar hn
      · intro k _ hk
        simpa using hk
    · rw [if_neg hn]
      have hdiv : n / 10 < 10 ^ fuel := by
        rw [Nat.div_lt_iff_lt_mul (by omega)]
        calc n < 10 ^ (fuel + 1) := hlt
          _ = 10 ^ fuel * 10 := by ring
      have hf1 : 1 ≤ fuel := by
        by_contra h0
        have : fuel = 0 := by omega
        subst this
        simp at hdiv
        omega
      obtain ⟨ihv, ihd, ihl, ihb⟩ := ih (n / 10) hdiv hf1
      refine ⟨?_, ?_, by simp, ?_⟩
      · rw [List.reverse_cons, digitsVal_append_singleton, ihv,
          digitVal_digitChar (by omega)]
        omega
      · intro c hc
        rcases List.mem_cons.mp hc with hc | hc
        · subst hc
          exact isDigitChar_digitChar (by omega)
        · exact ihd c hc
      · intro k hk hk1
        have hk2 : 2 ≤ k := by
          by_contra hk2
          have : k = 1 := by omega
          subst this
          simp at hk
          omega
        have : n / 10 < 10 ^ (k - 1) := by
          rw [Nat.div_lt_iff_lt_mul (by omega)]
          calc n < 10 ^ k := hk
            _ = 10 ^ (k - 1) * 10 := by
              rw [← pow_succ]
              congr 1
              omega
        have := ihb (k - 1) this (by omega)
        simp only [List.length_cons]
        omega

theorem natStr_spec (n : Nat) :
    digitsVal (natStr n) = n
      ∧ (∀ c ∈ natStr n, isDigitChar c = true)
      ∧ 1 ≤ (natStr n).length
      ∧ (∀ k, n < 10 ^ k → 1 ≤ k → (natStr n).length ≤ k) := by
  have hlt : n < 10 ^ (n + 1) :=
    lt_of_lt_of_le (Nat.lt_pow_self (by norm_num) n)
      (Nat.pow_le_pow_right (by norm_num) (by omega))
  obtain ⟨h1, h2, h3, h4⟩ := natToRevDigits_spec (n + 1) n hlt (by omega)
  refine ⟨h1, ?_, by simpa [natStr] using h3, ?_⟩
  · intro c hc
    exact h2 c (by simpa [natStr] using hc)
  · intro k hk hk1
    have := h4 k hk hk1
    simpa [natStr] using this

theorem digitsVal_padZeros (w : Nat) (s : List Char) :
    digitsVal (padZeros w s) = digitsVal s := by
  unfold padZeros digitsVal
  rw [List.foldl_append]
  have : ∀ (k : Nat), List.foldl (fun a c => 10 * a + digitVal c) 0
      (List.replicate k '0') = 0 := by
    intro k
    induction k with
    | zero => rfl
    | succ k ih =>
      rw [List.replicate_succ, digitsVal_cons]
      simpa [digitVal] using ih
  rw [this]

theorem padZeros_length {w : Nat} {s : List Char} (h : s.length ≤ w) :
    (padZeros w s).length = w := by
  unfold padZeros
  rw [List.length_append, List.length_replicate]
  omega

theorem padZeros_digits {w : Nat} {s : List Char}
    (h : ∀ c ∈ s, isDigitChar c = true) :
    ∀ c ∈ padZeros w s, isDigitChar c = true := by
  intro c hc
  unfold padZeros at hc
  rcases List.mem_append.mp hc with hc | hc
  · have := List.eq_of_mem_replicate hc
    subst this
    decide
  · exact h c hc

theorem splitChar_no_sep {sep : Char} : ∀ {xs : List Char}, sep ∉ xs →
    splitChar sep xs = [xs] := by
  intro xs
  induction xs with
  | nil => intro _; rfl
  | cons c cs ih =>
    intro hmem
    unfold splitChar
    rw [if_neg (by simp at hmem; exact fun h => hmem.1 h.symm)]
    rw [ih (by simp at hmem; exact hmem.2)]

theorem splitChar_append {sep : Char} {xs : List Char} (ys : List Char)
    (h : sep ∉ xs) :
    splitChar sep (xs ++ sep :: ys) = xs :: splitChar sep ys := by
  induction xs with
  | nil =>
    show splitChar sep (sep :: ys) = [] :: splitChar sep ys
    conv_lhs => unfold splitChar
    rw [if_pos rfl]
  | cons c cs ih =>
    show splitChar sep (c :: (cs ++ sep :: ys)) = (c :: cs) :: splitChar sep ys
    conv_lhs => unfold splitChar
    rw [if_neg (by simp at h; exact fun hh => h.1 hh.symm)]
    rw [ih (by simp at h; exact h.2)]

/-! ## The `Date` string codec (`date.py`) -/

/-- `str(Date)` = `strftime('%Y%m%d')`: unpadded year (glibc `%Y`; the
parser's `_pad_date_string` zero-pads it back), 2-padded month and day. -/
def dateToStr (o : Int) : List Char :=
  natStr (ord2ymd o.toNat).1
    ++ padZeros 2 (natStr (ord2ymd o.toNat).2.1)
    ++ padZeros 2 (natStr (ord2ymd o.toNat).2.2)

/-- Digit-string to `Nat`, or `none` (used to model Python `int(str)`). -/
def parseNatQ (s : List Char) : Option Nat :=
  if s ≠ [] ∧ s.all isDigitChar then some (digitsVal s) else none

/-- Python `int(str)`: optional sign then digits, `ValueError` → `none`. -/
def parseIntQ (s : List Char) : Option Int :=
  if s.head? = some '-' then
    (parseNatQ (s.drop 1)).map (fun k : Nat => -(k : Int))
  else if s.head? = some '+' then
    (parseNatQ (s.drop 1)).map (fun k : Nat => (k : Int))
  else (parseNatQ s).map (fun k : Nat => (k : Int))

/-- `datetime.strptime(s, '%Y%m%d').date()` on the padded strings
`_from_string` produces: exactly 8 digits split 4/2/2, validated as a real
calendar date. -/
def strptimeYmd8 (s : List Char) : Option (Nat × Nat × Nat) :=
  if s.length = 8 ∧ s.all isDigitChar then
    let y := digitsVal (s.take 4)
    let m := digitsVal ((s.drop 4).take 2)
    let d := digitsVal (s.drop 6)
    if 1 ≤ y ∧ 1 ≤ m ∧ m ≤ 12 ∧ 1 ≤ d ∧ d ≤ daysInMonth y m then some (y, m, d)
    else none
  else none

/-- `datetime.strptime(s, '%Y-%m-%d').date()`: `\d{1,4}-\d{1,2}-\d{1,2}`,
validated as a real calendar date. -/
def strptimeDash (s : List Char) : Option (Nat × Nat × Nat) :=
  match splitChar '-' s with
  | [ys, ms, ds] =>
      if ys ≠ [] ∧ ys.length ≤ 4 ∧ ys.all isDigitChar
          ∧ ms ≠ [] ∧ ms.length ≤ 2 ∧ ms.all isDigitChar
          ∧ ds ≠ [] ∧ ds.length ≤ 2 ∧ ds.all isDigitChar then
        let y := digitsVal ys
        let m := digitsVal ms
        let d := digitsVal ds
        if 1 ≤ y ∧ 1 ≤ m ∧ m ≤ 12 ∧ 1 ≤ d ∧ d ≤ daysInMonth y m then
          some (y, m, d)
        else none
      else none
  | _ => none

/-- `_pad_date_string` of `date.py`: zero-pad the year (dashed form) or the
whole string (`yyyymmdd` form). -/
def padDateString (s : List Char) : List Char :=
  if '-' ∈ s then
    List.replicate (4 - (s.takeWhile (· ≠ '-')).length) '0' ++ s
  else
    List.replicate (8 - s.length) '0' ++ s

/-- `_delta_from_string` of `date.py`: the relative aliases, or a signed int
(or `'0'`). -/
def deltaFromString (s : List Char) : Option Int :=
  let low := s.map Char.toLower
  if low = ['y', 'e', 's', 't'] ∨ low = ['y', 'e', 's', 't', 'e', 'r', 'd', 'a', 'y'] then
    some (-1)
  else if low = ['t', 'o', 'd', 'a', 'y'] then some 0
  else if low = ['t', 'o', 'm', 'o', 'r', 'r', 'o', 'w'] then some 1
  else if (s ≠ [] ∧ (s.head? = some '+' ∨ s.head? = some '-')) ∨ s = ['0'] then
    parseIntQ s
  else none

/-- `Date(string)` (`Date.__new__` → `_from_string`): relative deltas (which
go through `today + timedelta` and can overflow the domain), the `MIN`/`MAX`
aliases, then the padded absolute formats; `ValueError` otherwise. -/
def dateFromStr (today : Int) (s : List Char) : Except PyErr Int :=
  if s = [] then .error .valueError
  else
    match deltaFromString s with
    | some d =>
        if 1 ≤ today + d ∧ today + d ≤ maxOrd then .ok (today + d)
        else .error .overflowError
    | none =>
        if s = ['M', 'I', 'N'] then .ok minOrd
        else if s = ['M', 'A', 'X'] then .ok maxOrd
        else
          match strptimeYmd8 (padDateString s) with
          | some p => .ok ((ymd2ord p.1 p.2.1 p.2.2 : Nat) : Int)
          | none =>
              match strptimeDash (padDateString s) with
              | some p => .ok ((ymd2ord p.1 p.2.1 p.2.2 : Nat) : Int)
              | none => .error .valueError

/-! ## The `DateRange` string codec (`range.py`) -/

/-- `DateRange.to_string(opening_bracket, closing_bracket)` with the default
keyword parameters (as used by `__str__` and `cli_repr`): `NONE` for the
empty range, else `ob ++ start ++ ':' ++ stop [++ ':' ++ step] ++ cb`. -/
def DateRange.toStr (r : DateRange) (ob cb : List Char) : List Char :=
  if r.length = 0 then ['N', 'O', 'N', 'E']
  else
    ob ++ dateToStr r.start ++ [':'] ++ dateToStr r.stop
      ++ (if r.step ≠ 1 then [':'] ++ intStr r.step else [])
      ++ cb

/-- `str(DateRange)`: `to_string('[', ')')`. -/
def DateRange.str (r : DateRange) : List Char := r.toStr ['['] [')']

/-- `DateRange.cli_repr`: the bare single date when `len == 1`, else
`to_string('', '')`. -/
def DateRange.cliRepr (r : DateRange) : List Char :=
  if r.length = 1 then dateToStr r.start else r.toStr [] []

/-- `has_marker` of `from_string`: `p == '%'` or `p` starts with `'%'`
followed by a sign. -/
def hasMarker (p : List Char) : Bool :=
  decide (p = ['%'])
    || (decide (p.head? = some '%')
        && (decide (p.get? 1 = some '+') || decide (p.get? 1 = some '-')))

/-- `relative_to` of `from_string`: `rel_to + int(part[1:] or '0')`
(`Date + int`, so the domain check of `fromordinal` applies). -/
def relativeTo (p : List Char) (relTo : Int) : Except PyErr Int :=
  match (if p.drop 1 = [] then some 0 else parseIntQ (p.drop 1)) with
  | none => .error .valueError
  | some d => dateAddE relTo d

/-- The marker resolution of `from_string`'s two/three-part branch. -/
def resolveDates (today : Int) (p1 p2 : List Char) : Except PyErr (Int × Int) :=
  if hasMarker p1 then
    match dateFromStr today p2 with
    | .error e => .error e
    | .ok d2 =>
        match relativeTo p1 d2 with
        | .error e => .error e
        | .ok d1 => .ok (d1, d2)
  else if hasMarker p2 then
    match dateFromStr today p1 with
    | .error e => .error e
    | .ok d1 =>
        match relativeTo p2 d1 with
        | .error e => .error e
        | .ok d2 => .ok (d1, d2)
  else
    match dateFromStr today p1 with
    | .error e => .error e
    | .ok d1 =>
        match dateFromStr today p2 with
        | .error e => .error e
        | .ok d2 => .ok (d1, d2)

/-- The part-splitting body of `DateRange.from_string` (after the alias
checks and bracket stripping). -/
def fromStrCore (today : Int) (s2 : List Char) : Except PyErr DateRange :=
  match splitChar ':' s2 with
    | [p1] =>
        (match dateFromStr today p1 with
         | .error e => .error e
         | .ok d =>
             match dateAddE d 1 with
             | .error e => .error e
             | .ok d2 => .ok ⟨d, d2, 1⟩)
    | [p1, p2] =>
        (match resolveDates today p1 p2 with
         | .error e => .error e
         | .ok dd => .ok ⟨dd.1, dd.2, 1⟩)
    | [p1, p2, p3] =>
        (match resolveDates today p1 p2 with
         | .error e => .error e
         | .ok dd =>
             match parseIntQ p3 with
             | none => .error .valueError
             | some st =>
                 if st = 0 then .error .valueError else .ok ⟨dd.1, dd.2, st⟩)
    | _ => .error .valueError

/-- `DateRange.from_string` (`range.py` lines 183–252). -/
def DateRange.fromStr (today : Int) (s : List Char) : Except PyErr DateRange :=
  if s = ['A', 'L', 'L'] ∨ s = ['F', 'U', 'L', 'L'] then .ok DateRange.fullRange
  else if s = ['N', 'O', 'N', 'E'] ∨ s = ['E', 'M', 'P', 'T', 'Y'] then
    .ok DateRange.emptyRange
  else
    fromStrCore today
      (if s.head? = some '[' ∧ s.getLast? = some ')' then (s.drop 1).dropLast
       else s)

/-! ## Round-trip lemmas for the codec -/

theorem daysInMonth_le (y m : Nat) : daysInMonth y m ≤ 31 := by
  unfold daysInMonth
  split_ifs <;> omega

theorem toLower_digit {c : Char} (h : isDigitChar c = true) :
    Char.toLower c = c := by
  simp only [isDigitChar, Bool.and_eq_true, decide_eq_true_eq] at h
  unfold Char.toLower
  rw [if_neg]
  simp only [ge_iff_le, Bool.and_eq_true, decide_eq_true_eq, not_and]
  omega

theorem map_toLower_digits {s : List Char}
    (h : ∀ c ∈ s, isDigitChar c = true) : s.map Char.toLower = s := by
  induction s with
  | nil => rfl
  | cons c cs ih =>
    simp only [List.map_cons]
    rw [toLower_digit (h c (by simp)), ih (fun x hx => h x (by simp [hx]))]

theorem head?_mem {s : List Char} {c : Char} (h : s.head? = some c) : c ∈ s := by
  cases s with
  | nil => simp at h
  | cons a as =>
    simp only [List.head?_cons, Option.some.injEq] at h
    subst h
    simp

theorem digits_ne_cons {s : List Char}
    (hd : ∀ c ∈ s, isDigitChar c = true) {c : Char}
    (hc : ¬ isDigitChar c = true) (t : List Char) : s ≠ c :: t := by
  intro h
  subst h
  exact hc (hd c (by simp))

theorem dateToStr_digits (o : Int) :
    ∀ c ∈ dateToStr o, isDigitChar c = true := by
  intro c hc
  unfold dateToStr at hc
  rcases List.mem_append.mp hc with hc | hc
  · rcases List.mem_append.mp hc with hc | hc
    · exact (natStr_spec _).2.1 c hc
    · exact padZeros_digits ((natStr_spec _).2.1) c hc
  · exact padZeros_digits ((natStr_spec _).2.1) c hc

theorem dateToStr_length (o : Int) (h1 : 1 ≤ o) (h2 : o ≤ maxOrd) :
    (dateToStr o).length = (natStr (ord2ymd o.toNat).1).length + 4
      ∧ 1 ≤ (natStr (ord2ymd o.toNat).1).length
      ∧ (natStr (ord2ymd o.toNat).1).length ≤ 4 := by
  have hn1 : 1 ≤ o.toNat := by simp only [maxOrd] at h2; omega
  have hn2 : o.toNat ≤ 3652059 := by simp only [maxOrd] at h2; omega
  obtain ⟨hy1, hy9999, hm1, hm12, hdd1, hdd2, hord⟩ := ord2ymd_spec o.toNat hn1 hn2
  have hylen4 : (natStr (ord2ymd o.toNat).1).length ≤ 4 := by
    refine (natStr_spec _).2.2.2 4 ?_ (by omega)
    have hp : (10 : Nat) ^ 4 = 10000 := by norm_num
    omega
  have hmlen2 : (natStr (ord2ymd o.toNat).2.1).length ≤ 2 := by
    refine (natStr_spec _).2.2.2 2 ?_ (by omega)
    have hp : (10 : Nat) ^ 2 = 100 := by norm_num
    omega
  have hdlen2 : (natStr (ord2ymd o.toNat).2.2).length ≤ 2 := by
    refine (natStr_spec _).2.2.2 2 ?_ (by omega)
    have := daysInMonth_le (ord2ymd o.toNat).1 (ord2ymd o.toNat).2.1
    have hp : (10 : Nat) ^ 2 = 100 := by norm_num
    omega
  refine ⟨?_, (natStr_spec _).2.2.1, hylen4⟩
  unfold dateToStr
  rw [List.length_append, List.length_append, padZeros_length hmlen2,
    padZeros_length hdlen2]

/-- The date-level round trip: parsing `str(Date)` recovers the ordinal for
every supported date. -/
theorem dateFromStr_dateToStr (today o : Int) (h1 : 1 ≤ o) (h2 : o ≤ maxOrd) :
    dateFromStr today (dateToStr o) = .ok o := by
  have hn1 : 1 ≤ o.toNat := by simp only [maxOrd] at h2; omega
  have hn2 : o.toNat ≤ 3652059 := by simp only [maxOrd] at h2; omega
  obtain ⟨hy1, hy9999, hm1, hm12, hdd1, hdd2, hord⟩ := ord2ymd_spec o.toNat hn1 hn2
  obtain ⟨hslen, hylen1, hylen4⟩ := dateToStr_length o h1 h2
  have hdig := dateToStr_digits o
  have hhead : ∀ c, (dateToStr o).head? = some c → isDigitChar c = true :=
    fun c hc => hdig c (head?_mem hc)
  have hsne : dateToStr o ≠ [] := by
    intro h
    rw [h] at hslen
    simp only [List.length_nil] at hslen
    omega
  set y := (ord2ymd o.toNat).1 with hydef
  set m := (ord2ymd o.toNat).2.1 with hmdef
  set d := (ord2ymd o.toNat).2.2 with hddef
  obtain ⟨hyval, hydig2, _, _⟩ := natStr_spec y
  obtain ⟨hmval, _, _, _⟩ := natStr_spec m
  obtain ⟨hdval, _, _, _⟩ := natStr_spec d
  have hmlen2 : (natStr m).length ≤ 2 := by
    refine (natStr_spec _).2.2.2 2 ?_ (by omega)
    have hp : (10 : Nat) ^ 2 = 100 := by norm_num
    omega
  have hdlen2 : (natStr d).length ≤ 2 := by
    refine (natStr_spec _).2.2.2 2 ?_ (by omega)
    have := daysInMonth_le y m
    have hp : (10 : Nat) ^ 2 = 100 := by norm_num
    omega
  set Y := natStr y with hYdef
  set M := padZeros 2 (natStr m) with hMdef
  set D := padZeros 2 (natStr d) with hDdef
  have hMlen : M.length = 2 := padZeros_length hmlen2
  have hDlen : D.length = 2 := padZeros_length hdlen2
  have hsdef : dateToStr o = Y ++ M ++ D := rfl
  -- (1) deltaFromString misses
  have hdelta : deltaFromString (dateToStr o) = none := by
    unfold deltaFromString
    rw [map_toLower_digits hdig]
    rw [if_neg (by
      rintro (h | h) <;> exact digits_ne_cons hdig (by decide) _ h)]
    rw [if_neg (digits_ne_cons hdig (by decide) _)]
    rw [if_neg (digits_ne_cons hdig (by decide) _)]
    rw [if_neg (by
      rintro (⟨-, h | h⟩ | h)
      · exact absurd (hhead _ h) (by decide)
      · exact absurd (hhead _ h) (by decide)
      · rw [h] at hslen
        simp only [List.length_singleton] at hslen
        omega)]
  -- (2) the absolute parse hits
  have hnodash : ¬ '-' ∈ dateToStr o := fun hmem =>
    absurd (hdig '-' hmem) (by decide)
  have hcount : 8 - (dateToStr o).length = 4 - Y.length := by omega
  have hpad : padDateString (dateToStr o)
      = List.replicate (4 - Y.length) '0' ++ (Y ++ M ++ D) := by
    unfold padDateString
    rw [if_neg hnodash, hcount, ← hsdef]
  set R : List Char := List.replicate (4 - Y.length) '0' with hRdef
  have hRlen : R.length = 4 - Y.length := List.length_replicate _ _
  have hRYlen : (R ++ Y).length = 4 := by
    rw [List.length_append]
    omega
  have hform1 : R ++ (Y ++ M ++ D) = (R ++ Y) ++ (M ++ D) := by
    simp [List.append_assoc]
  have hform2 : R ++ (Y ++ M ++ D) = ((R ++ Y) ++ M) ++ D := by
    simp [List.append_assoc]
  have hRYMlen : ((R ++ Y) ++ M).length = 6 := by
    rw [List.length_append, hRYlen, hMlen]
  have hpadlen : (R ++ (Y ++ M ++ D)).length = 8 := by
    simp only [List.length_append, hRlen, hMlen, hDlen]
    omega
  have hpaddig : ∀ c ∈ R ++ (Y ++ M ++ D), isDigitChar c = true := by
    intro c hc
    rcases List.mem_append.mp hc with hc | hc
    · have := List.eq_of_mem_replicate hc
      subst this
      decide
    · exact hdig c (hsdef ▸ hc)
  have htake4 : (R ++ (Y ++ M ++ D)).take 4 = R ++ Y := by
    rw [hform1]
    exact List.take_left' hRYlen
  have hdrop4 : (R ++ (Y ++ M ++ D)).drop 4 = M ++ D := by
    rw [hform1]
    exact List.drop_left' hRYlen
  have hdrop6 : (R ++ (Y ++ M ++ D)).drop 6 = D := by
    rw [hform2]
    exact List.drop_left' hRYMlen
  have htake2 : (M ++ D).take 2 = M := List.take_left' hMlen
  have hvalY : digitsVal (R ++ Y) = y := by
    have : R ++ Y = padZeros 4 Y := by
      unfold padZeros
      rw [hRdef]
    rw [this, digitsVal_padZeros, hYdef, hyval]
  have hvalM : digitsVal M = m := by
    rw [hMdef, digitsVal_padZeros, hmval]
  have hvalD : digitsVal D = d := by
    rw [hDdef, digitsVal_padZeros, hdval]
  have hymd8 : strptimeYmd8 (padDateString (dateToStr o)) = some (y, m, d) := by
    rw [hpad]
    unfold strptimeYmd8
    rw [if_pos ⟨hpadlen, List.all_eq_true.mpr hpaddig⟩]
    simp only [htake4, hdrop4, hdrop6, htake2, hvalY, hvalM, hvalD]
    rw [if_pos ⟨hy1, hm1, hm12, hdd1, hdd2⟩]
  -- assemble
  unfold dateFromStr
  rw [if_neg hsne, hdelta]
  rw [if_neg (digits_ne_cons hdig (by decide) _)]
  rw [if_neg (digits_ne_cons hdig (by decide) _)]
  rw [hymd8]
  show Except.ok ((ymd2ord y m d : Nat) : Int) = Except.ok o
  rw [hord, Int.toNat_of_nonneg (by omega)]

theorem parseNatQ_natStr (n : Nat) : parseNatQ (natStr n) = some n := by
  obtain ⟨hval, hdig, hlen, -⟩ := natStr_spec n
  have hne : natStr n ≠ [] := by
    intro h
    rw [h] at hlen
    simp at hlen
  unfold parseNatQ
  rw [if_pos ⟨hne, List.all_eq_true.mpr hdig⟩, hval]

theorem parseIntQ_intStr (n : Int) : parseIntQ (intStr n) = some n := by
  unfold intStr
  by_cases hn : n < 0
  · rw [if_pos hn]
    unfold parseIntQ
    rw [if_pos (by rfl)]
    show (parseNatQ (natStr n.natAbs)).map (fun k : Nat => -(k : Int)) = some n
    rw [parseNatQ_natStr]
    have hcast : (n.natAbs : Int) = -n := by
      rw [← Int.natAbs_neg]
      exact Int.natAbs_of_nonneg (by omega)
    show some (-(n.natAbs : Int)) = some n
    rw [hcast, neg_neg]
  · rw [if_neg hn]
    unfold parseIntQ
    have hdig := (natStr_spec n.toNat).2.1
    have hhead : ∀ c, (natStr n.toNat).head? = some c → isDigitChar c = true :=
      fun c hc => hdig c (head?_mem hc)
    rw [if_neg (fun h => absurd (hhead _ h) (by decide)),
      if_neg (fun h => absurd (hhead _ h) (by decide))]
    rw [parseNatQ_natStr]
    show some ((n.toNat : Nat) : Int) = some n
    rw [Int.toNat_of_nonneg (by omega)]

theorem intStr_chars (n : Int) :
    ∀ c ∈ intStr n, isDigitChar c = true ∨ c = '-' := by
  intro c hc
  unfold intStr at hc
  split_ifs at hc with h
  · rcases List.mem_cons.mp hc with hc | hc
    · exact Or.inr hc
    · exact Or.inl ((natStr_spec _).2.1 c hc)
  · exact Or.inl ((natStr_spec _).2.1 c hc)

theorem hasMarker_digits {p : List Char} (hne : p ≠ [])
    (hd : ∀ c ∈ p, isDigitChar c = true) : hasMarker p = false := by
  obtain ⟨c, cs, rfl⟩ := List.exists_cons_of_ne_nil hne
  have hc := hd c (by simp)
  have hc' : c ≠ '%' := by
    intro h
    rw [h] at hc
    exact absurd hc (by decide)
  unfold hasMarker
  rw [decide_eq_false (by simp [hc'] : ¬ (c :: cs = ['%']))]
  rw [decide_eq_false (by simp [List.head?_cons, hc'] :
    ¬ ((c :: cs).head? = some '%'))]
  rfl

theorem dateToStr_ne_nil (o : Int) (h1 : 1 ≤ o) (h2 : o ≤ maxOrd) :
    dateToStr o ≠ [] := by
  obtain ⟨hl, hy1, -⟩ := dateToStr_length o h1 h2
  intro hh
  rw [hh] at hl
  simp only [List.length_nil] at hl
  omega

theorem colon_not_in_dateToStr (o : Int) : ':' ∉ dateToStr o := fun hmem =>
  absurd (dateToStr_digits o ':' hmem) (by decide)

theorem colon_not_in_intStr (n : Int) : ':' ∉ intStr n := fun hmem => by
  rcases intStr_chars n ':' hmem with h | h
  · exact absurd h (by decide)
  · exact absurd h (by decide)

theorem DateRange.beq_refl (r : DateRange) : DateRange.beq r r = true := by
  unfold DateRange.beq
  simp

/-- The resolution of two plain absolute date parts. -/
theorem resolveDates_dates (today : Int) (r : DateRange)
    (hv1 : 1 ≤ r.start) (hv2 : r.start ≤ maxOrd)
    (hv3 : 1 ≤ r.stop) (hv4 : r.stop ≤ maxOrd) :
    resolveDates today (dateToStr r.start) (dateToStr r.stop)
      = .ok (r.start, r.stop) := by
  unfold resolveDates
  rw [if_neg (by
    rw [hasMarker_digits (dateToStr_ne_nil _ hv1 hv2) (dateToStr_digits _)]
    simp)]
  rw [if_neg (by
    rw [hasMarker_digits (dateToStr_ne_nil _ hv3 hv4) (dateToStr_digits _)]
    simp)]
  rw [dateFromStr_dateToStr today r.start hv1 hv2,
    dateFromStr_dateToStr today r.stop hv3 hv4]

/-- C3: `DateRange.from_string(str(r))` returns a range sequence-equal to
`r`, for every valid `r` — empty, single-element, multi-element, unit or
non-unit step, positive or negative step, including the full range. -/
theorem fromStr_str_roundtrip (today : Int) (r : DateRange) (h : r.Valid) :
    ∃ r2, DateRange.fromStr today (DateRange.str r) = .ok r2
      ∧ DateRange.beq r2 r = true := by
  obtain ⟨hv1, hv2, hv3, hv4, hvs⟩ := h
  by_cases hlen : r.length = 0
  · refine ⟨DateRange.emptyRange, ?_, ?_⟩
    · have hs : DateRange.str r = ['N', 'O', 'N', 'E'] := by
        unfold DateRange.str DateRange.toStr
        rw [if_pos hlen]
      rw [hs]
      rfl
    · unfold DateRange.beq
      rw [show DateRange.emptyRange.length = 0 from rfl, hlen]
      rfl
  · have hd1 := dateToStr_digits r.start
    have hd2 := dateToStr_digits r.stop
    have hne1 : dateToStr r.start ≠ [] := dateToStr_ne_nil _ hv1 hv2
    have hresolve := resolveDates_dates today r hv1 hv2 hv3 hv4
    by_cases hstep : r.step = 1
    · have hs : DateRange.str r
          = '[' :: ((dateToStr r.start ++ ':' :: dateToStr r.stop) ++ [')']) := by
        unfold DateRange.str DateRange.toStr
        rw [if_neg hlen, if_neg (by omega : ¬ r.step ≠ 1)]
        simp [List.append_assoc]
      have hsplit : splitChar ':' (dateToStr r.start ++ ':' :: dateToStr r.stop)
          = [dateToStr r.start, dateToStr r.stop] := by
        rw [splitChar_append _ (colon_not_in_dateToStr _)]
        rw [splitChar_no_sep (colon_not_in_dateToStr _)]
      refine ⟨⟨r.start, r.stop, 1⟩, ?_, ?_⟩
      · rw [hs]
        unfold DateRange.fromStr
        rw [if_neg (by simp), if_neg (by simp)]
        rw [if_pos ⟨rfl, by
          rw [show '[' :: ((dateToStr r.start ++ ':' :: dateToStr r.stop) ++ [')'])
              = ('[' :: (dateToStr r.start ++ ':' :: dateToStr r.stop)) ++ [')']
            from by simp]
          rw [List.getLast?_concat]⟩]
        have hstrip : (('[' :: ((dateToStr r.start ++ ':' :: dateToStr r.stop)
            ++ [')'])).drop 1).dropLast
            = dateToStr r.start ++ ':' :: dateToStr r.stop := by
          simp only [List.drop_succ_cons, List.drop_zero]
          rw [List.dropLast_concat]
        rw [hstrip]
        unfold fromStrCore
        rw [hsplit]
        show (match resolveDates today (dateToStr r.start) (dateToStr r.stop) with
          | Except.error e => Except.error e
          | Except.ok dd => Except.ok ⟨dd.1, dd.2, 1⟩)
            = Except.ok (⟨r.start, r.stop, 1⟩ : DateRange)
        rw [hresolve]
      · have he : (⟨r.start, r.stop, 1⟩ : DateRange) = r := by
          rw [← hstep]
        rw [he]
        exact DateRange.beq_refl r
    · have hs : DateRange.str r
          = '[' :: ((dateToStr r.start
              ++ ':' :: (dateToStr r.stop ++ ':' :: intStr r.step)) ++ [')']) := by
        unfold DateRange.str DateRange.toStr
        rw [if_neg hlen, if_pos hstep]
        simp [List.append_assoc]
      have hsplit : splitChar ':'
          (dateToStr r.start ++ ':' :: (dateToStr r.stop ++ ':' :: intStr r.step))
          = [dateToStr r.start, dateToStr r.stop, intStr r.step] := by
        rw [splitChar_append _ (colon_not_in_dateToStr _)]
        rw [splitChar_append _ (colon_not_in_dateToStr _)]
        rw [splitChar_no_sep (colon_not_in_intStr _)]
      refine ⟨⟨r.start, r.stop, r.step⟩, ?_, ?_⟩
      · rw [hs]
        unfold DateRange.fromStr
        rw [if_neg (by simp), if_neg (by simp)]
        rw [if_pos ⟨rfl, by
          rw [show '[' :: ((dateToStr r.start
              ++ ':' :: (dateToStr r.stop ++ ':' :: intStr r.step)) ++ [')'])
              = ('[' :: (dateToStr r.start
                ++ ':' :: (dateToStr r.stop ++ ':' :: intStr r.step))) ++ [')']
            from by simp]
          rw [List.getLast?_concat]⟩]
        have hstrip : (('[' :: ((dateToStr r.start
            ++ ':' :: (dateToStr r.stop ++ ':' :: intStr r.step))
            ++ [')'])).drop 1).dropLast
            = dateToStr r.start ++ ':' :: (dateToStr r.stop ++ ':' :: intStr r.step) := by
          simp only [List.drop_succ_cons, List.drop_zero]
          rw [List.dropLast_concat]
        rw [hstrip]
        unfold fromStrCore
        rw [hsplit]
        show (match resolveDates today (dateToStr r.start) (dateToStr r.stop) with
          | Except.error e => Except.error e
          | Except.ok dd =>
              match parseIntQ (intStr r.step) with
              | none => Except.error PyErr.valueError
              | some st =>
                  if st = 0 then Except.error PyErr.valueError
                  else Except.ok ⟨dd.1, dd.2, st⟩)
            = Except.ok (⟨r.start, r.stop, r.step⟩ : DateRange)
        rw [hresolve, parseIntQ_intStr]
        show (if r.step = 0 then Except.error PyErr.valueError
            else Except.ok (⟨r.start, r.stop, r.step⟩ : DateRange))
            = Except.ok (⟨r.start, r.stop, r.step⟩ : DateRange)
        rw [if_neg hvs]
      · have he : (⟨r.start, r.stop, r.step⟩ : DateRange) = r := rfl
        rw [he]
        exact DateRange.beq_refl r

theorem fromStr_str_roundtrip_witness :
    (⟨738157, 738177, 7⟩ : DateRange).Valid ∧
    ∃ r2, DateRange.fromStr 730000 (DateRange.str ⟨738157, 738177, 7⟩) = .ok r2
      ∧ DateRange.beq r2 ⟨738157, 738177, 7⟩ = true :=
  ⟨by decide, fromStr_str_roundtrip 730000 ⟨738157, 738177, 7⟩ (by decide)⟩

theorem cons_ne_of_head {c1 c : Char} {t1 rest : List Char}
    (h : isDigitChar c1 = true) (hc : isDigitChar c = false) :
    c1 :: t1 ≠ c :: rest := by
  intro he
  rw [List.cons.injEq] at he
  rw [he.1] at h
  rw [h] at hc
  cases hc

theorem length_one_day (a : Int) : (⟨a, a + 1, 1⟩ : DateRange).length = 1 := by
  unfold DateRange.length
  rw [if_pos (by norm_num : (0 : Int) < 1), if_pos (by omega : a < a + 1)]
  norm_num

/-- C10 (amended): parsing `cli_repr(r)` recovers a sequence-equal range for
every valid `r` except the single-element range whose element is the maximal
supported date: its bare-date form re-parses as `[D, D+1)` and `D+1` is past
`Date.max`. -/
theorem fromStr_cliRepr_roundtrip (today : Int) (r : DateRange) (h : r.Valid)
    (hmax : ¬ (r.length = 1 ∧ r.start = maxOrd)) :
    ∃ r2, DateRange.fromStr today (DateRange.cliRepr r) = .ok r2
      ∧ DateRange.beq r2 r = true := by
  obtain ⟨hv1, hv2, hv3, hv4, hvs⟩ := h
  by_cases hlen1 : r.length = 1
  · -- bare single date
    have hcli : DateRange.cliRepr r = dateToStr r.start := by
      unfold DateRange.cliRepr
      rw [if_pos hlen1]
    have hdig := dateToStr_digits r.start
    have hhead : ∀ c, (dateToStr r.start).head? = some c → isDigitChar c = true :=
      fun c hc => hdig c (head?_mem hc)
    refine ⟨⟨r.start, r.start + 1, 1⟩, ?_, ?_⟩
    · rw [hcli]
      unfold DateRange.fromStr
      rw [if_neg (by
        rintro (h | h) <;> exact digits_ne_cons hdig (by decide) _ h)]
      rw [if_neg (by
        rintro (h | h) <;> exact digits_ne_cons hdig (by decide) _ h)]
      rw [if_neg (by
        rintro ⟨hh, -⟩
        exact absurd (hhead _ hh) (by decide))]
      unfold fromStrCore
      rw [splitChar_no_sep (colon_not_in_dateToStr _)]
      have hadd : dateAddE r.start 1 = .ok (r.start + 1) := by
        unfold dateAddE
        rw [if_pos ⟨by omega, by
          have : r.start ≠ maxOrd := fun hh => hmax ⟨hlen1, hh⟩
          omega⟩]
      show (match dateFromStr today (dateToStr r.start) with
        | Except.error e => Except.error e
        | Except.ok d =>
            match dateAddE d 1 with
            | Except.error e => Except.error e
            | Except.ok d2 => Except.ok ⟨d, d2, 1⟩)
          = Except.ok (⟨r.start, r.start + 1, 1⟩ : DateRange)
      rw [dateFromStr_dateToStr today r.start hv1 hv2]
      show (match dateAddE r.start 1 with
        | Except.error e => Except.error e
        | Except.ok d2 => Except.ok ⟨r.start, d2, 1⟩)
          = Except.ok (⟨r.start, r.start + 1, 1⟩ : DateRange)
      rw [hadd]
    · unfold DateRange.beq
      rw [length_one_day, hlen1]
      simp
  · by_cases hlen0 : r.length = 0
    · refine ⟨DateRange.emptyRange, ?_, ?_⟩
      · have hs : DateRange.cliRepr r = ['N', 'O', 'N', 'E'] := by
          unfold DateRange.cliRepr DateRange.toStr
          rw [if_neg hlen1, if_pos hlen0]
        rw [hs]
        rfl
      · unfold DateRange.beq
        rw [show DateRange.emptyRange.length = 0 from rfl, hlen0]
        rfl
    · -- two or more elements: bare `start:stop[:step]`
      have hresolve := resolveDates_dates today r hv1 hv2 hv3 hv4
      obtain ⟨c1, t1, hc1⟩ :=
        List.exists_cons_of_ne_nil (dateToStr_ne_nil r.start hv1 hv2)
      have hc1dig : isDigitChar c1 = true :=
        dateToStr_digits r.start c1 (by rw [hc1]; simp)
      by_cases hstep : r.step = 1
      · have hs : DateRange.cliRepr r
            = dateToStr r.start ++ ':' :: dateToStr r.stop := by
          unfold DateRange.cliRepr DateRange.toStr
          rw [if_neg hlen1, if_neg hlen0, if_neg (by omega : ¬ r.step ≠ 1)]
          simp [List.append_assoc]
        have hsplit : splitChar ':' (dateToStr r.start ++ ':' :: dateToStr r.stop)
            = [dateToStr r.start, dateToStr r.stop] := by
          rw [splitChar_append _ (colon_not_in_dateToStr _)]
          rw [splitChar_no_sep (colon_not_in_dateToStr _)]
        refine ⟨⟨r.start, r.stop, 1⟩, ?_, ?_⟩
        · rw [hs]
          unfold DateRange.fromStr
          rw [if_neg (by
            rw [hc1, List.cons_append]
            rintro (h | h) <;> exact cons_ne_of_head hc1dig (by decide) h),
            if_neg (by
            rw [hc1, List.cons_append]
            rintro (h | h) <;> exact cons_ne_of_head hc1dig (by decide) h)]
          rw [if_neg (by
            rw [hc1, List.cons_append]
            rintro ⟨hh, -⟩
            simp only [List.head?_cons, Option.some.injEq] at hh
            rw [hh] at hc1dig
            exact absurd hc1dig (by decide))]
          unfold fromStrCore
          rw [hsplit]
          show (match resolveDates today (dateToStr r.start) (dateToStr r.stop) with
            | Except.error e => Except.error e
            | Except.ok dd => Except.ok ⟨dd.1, dd.2, 1⟩)
              = Except.ok (⟨r.start, r.stop, 1⟩ : DateRange)
          rw [hresolve]
        · rw [← hstep]
          exact DateRange.beq_refl r
      · have hs : DateRange.cliRepr r
            = dateToStr r.start
              ++ ':' :: (dateToStr r.stop ++ ':' :: intStr r.step) := by
          unfold DateRange.cliRepr DateRange.toStr
          rw [if_neg hlen1, if_neg hlen0, if_pos hstep]
          simp [List.append_assoc]
        have hsplit : splitChar ':'
            (dateToStr r.start ++ ':' :: (dateToStr r.stop ++ ':' :: intStr r.step))
            = [dateToStr r.start, dateToStr r.stop, intStr r.step] := by
          rw [splitChar_append _ (colon_not_in_dateToStr _)]
          rw [splitChar_append _ (colon_not_in_dateToStr _)]
          rw [splitChar_no_sep (colon_not_in_intStr _)]
        refine ⟨⟨r.start, r.stop, r.step⟩, ?_, ?_⟩
        · rw [hs]
          unfold DateRange.fromStr
          rw [if_neg (by
            rw [hc1, List.cons_append]
            rintro (h | h) <;> exact cons_ne_of_head hc1dig (by decide) h),
            if_neg (by
            rw [hc1, List.cons_append]
            rintro (h | h) <;> exact cons_ne_of_head hc1dig (by decide) h)]
          rw [if_neg (by
            rw [hc1, List.cons_append]
            rintro ⟨hh, -⟩
            simp only [List.head?_cons, Option.some.injEq] at hh
            rw [hh] at hc1dig
            exact absurd hc1dig (by decide))]
          unfold fromStrCore
          rw [hsplit]
          show (match resolveDates today (dateToStr r.start) (dateToStr r.stop) with
            | Except.error e => Except.error e
            | Except.ok dd =>
                match parseIntQ (intStr r.step) with
                | none => Except.error PyErr.valueError
                | some st =>
                    if st = 0 then Except.error PyErr.valueError
                    else Except.ok ⟨dd.1, dd.2, st⟩)
              = Except.ok (⟨r.start, r.stop, r.step⟩ : DateRange)
          rw [hresolve, parseIntQ_intStr]
          show (if r.step = 0 then Except.error PyErr.valueError
              else Except.ok (⟨r.start, r.stop, r.step⟩ : DateRange))
              = Except.ok (⟨r.start, r.stop, r.step⟩ : DateRange)
          rw [if_neg hvs]
        · exact DateRange.beq_refl r

/-- C10 counterexample: the claim *as stated* fails for the valid one-element
range `{9999-12-31}` (stored as `DateRange(9999-12-31, 9999-12-30, -1)`):
`cli_repr` emits the bare date `99991231`, and `from_string` then evaluates
`Date('99991231') + 1`, which is past `Date.max` and raises `ValueError`. -/
theorem cliRepr_roundtrip_cex :
    (⟨3652059, 3652058, -1⟩ : DateRange).Valid
    ∧ (⟨3652059, 3652058, -1⟩ : DateRange).length = 1
    ∧ DateRange.fromStr 730000 (DateRange.cliRepr ⟨3652059, 3652058, -1⟩)
        = .error .valueError := by
  refine ⟨by decide, by decide, ?_⟩
  rfl

/-- C7: intersecting two ranges whose steps have opposite signs signals a
`ValueError` — the same error kind the parser raises for an invalid range
string and for an unconvertible date string — synchronously, with no range
returned. -/
theorem intersection_sign_mismatch (a b : DateRange)
    (h : decide (0 < a.step) ≠ decide (0 < b.step)) :
    (a.intersection b = .error .valueError
      ∧ ∀ r, a.intersection b ≠ .ok r)
    ∧ DateRange.fromStr 730000 ['a', ':', 'b', ':', 'c', ':', 'd']
        = .error .valueError
    ∧ dateFromStr 730000 ['x', 'y', 'z'] = .error .valueError := by
  have hmain : a.intersection b = .error .valueError := by
    unfold DateRange.intersection
    rw [if_pos h]
  exact ⟨⟨hmain, fun r hr => by
    rw [hmain] at hr
    exact Except.noConfusion hr⟩, rfl, rfl⟩

theorem intersection_sign_mismatch_witness :
    decide (0 < (⟨100, 110, 1⟩ : DateRange).step)
        ≠ decide (0 < (⟨110, 100, -1⟩ : DateRange).step)
    ∧ ((DateRange.intersection ⟨100, 110, 1⟩ ⟨110, 100, -1⟩ = .error .valueError
        ∧ ∀ r, DateRange.intersection ⟨100, 110, 1⟩ ⟨110, 100, -1⟩ ≠ .ok r)
      ∧ DateRange.fromStr 730000 ['a', ':', 'b', ':', 'c', ':', 'd']
          = .error .valueError
      ∧ dateFromStr 730000 ['x', 'y', 'z'] = .error .valueError) :=
  ⟨by decide, intersection_sign_mismatch ⟨100, 110, 1⟩ ⟨110, 100, -1⟩ (by decide)⟩

theorem fromStr_cliRepr_witness :
    (⟨100, 110, 2⟩ : DateRange).Valid
    ∧ ¬ ((⟨100, 110, 2⟩ : DateRange).length = 1
        ∧ (⟨100, 110, 2⟩ : DateRange).start = maxOrd)
    ∧ ∃ r2, DateRange.fromStr 730000 (DateRange.cliRepr ⟨100, 110, 2⟩)
        = .ok r2 ∧ DateRange.beq r2 ⟨100, 110, 2⟩ = true :=
  ⟨by decide, by decide,
    fromStr_cliRepr_roundtrip 730000 ⟨100, 110, 2⟩ (by decide) (by decide)⟩

/-! ## MereologyRelations

The mereology methods (`overlaps`, `is_part`, `is_proper_part`, `underlaps`,
`is_adjacent`, `union`, `difference`) are exercised by the test suite but
their bodies are not present under `src/`; the definitions below are modelled
from the specification text. -/

/-- Modelled from the spec: the unsupported-relation rule fires "when α and β
use different, non-unit steps with a phase misalignment the closed-form method
cannot resolve" — here, a start offset not divisible by
`gcd(|step0|, |step1|)`. -/
def mereologyUnsupported (a b : DateRange) : Bool :=
  a.step != b.step && a.step != 1 && b.step != 1
    && (b.start - a.start).fmod (Int.gcd a.step b.step : Int) != 0

/-- Modelled from the spec: `overlaps(α, β)` is true iff the element sets
intersect; it stays computable for every step combination, and two empty
ranges do not overlap. -/
def DateRange.overlaps (a b : DateRange) : Bool :=
  a.toList.any (fun o => b.containsOrd o)

/-- Modelled from the spec: `is_part(α, β)` is element-wise containment of α
in β, signalling unsupported-relation under the rule above. -/
def DateRange.is_part (a b : DateRange) : Except PyErr Bool :=
  if mereologyUnsupported a b then .error .notImplementedError
  else .ok (a.toList.all (fun o => b.containsOrd o))

/-- Modelled from the spec: `is_proper_part(α, β)` is `is_part` plus sequence
inequality. -/
def DateRange.is_proper_part (a b : DateRange) : Except PyErr Bool :=
  if mereologyUnsupported a b then .error .notImplementedError
  else .ok ((a.toList.all (fun o => b.containsOrd o)) && !(DateRange.beq a b))

/-- Modelled from the spec: `underlaps(α, β)` — for ranges sharing a step
lattice, true when their spans intersect or touch. -/
def DateRange.underlaps (a b : DateRange) : Except PyErr Bool :=
  if mereologyUnsupported a b then .error .notImplementedError
  else .ok (decide (a.start ≤ b.stop) && decide (b.start ≤ a.stop))

/-- Modelled from the spec: `is_adjacent(α, β)` — the trailing boundary of one
range touches the leading boundary of the other, with no gap and no
overlap. -/
def DateRange.is_adjacent (a b : DateRange) : Except PyErr Bool :=
  if mereologyUnsupported a b then .error .notImplementedError
  else .ok ((a.stop == b.start || b.stop == a.start)
    && !(DateRange.overlaps a b))

/-- Modelled from the spec: `union(α, β)` merges overlapping or adjacent
progressions into one range and signals a malformed-input error when the two
ranges are disjoint with a gap. -/
def DateRange.union (a b : DateRange) : Except PyErr DateRange :=
  if mereologyUnsupported a b then .error .notImplementedError
  else if a.length = 0 then .ok b
  else if b.length = 0 then .ok a
  else if a.start ≤ b.stop ∧ b.start ≤ a.stop then
    .ok ⟨min a.start b.start, max a.stop b.stop, a.step⟩
  else .error .valueError

/-- Modelled from the spec: the 0, 1 or 2 fragments of `difference(α, β)` for
unit-step ranges — the part of α left of β and the part of α right of β,
dropping empty fragments (α itself when β is empty). -/
def diffFragments (a b : DateRange) : List DateRange :=
  if a.length = 0 then []
  else if b.length = 0 then [a]
  else
    (if (⟨a.start, min a.stop b.start, 1⟩ : DateRange).length ≠ 0
      then [(⟨a.start, min a.stop b.start, 1⟩ : DateRange)] else [])
    ++ (if (⟨max a.start b.stop, a.stop, 1⟩ : DateRange).length ≠ 0
      then [(⟨max a.start b.stop, a.stop, 1⟩ : DateRange)] else [])

/-- Modelled from the spec: `difference(α, β)`, in closed form for the
unit-step (step-compatible) case, signalling unsupported-relation for step
combinations the closed form does not cover. -/
def DateRange.difference (a b : DateRange) : Except PyErr (List DateRange) :=
  if mereologyUnsupported a b then .error .notImplementedError
  else if a.step = 1 ∧ b.step = 1 then .ok (diffFragments a b)
  else .error .notImplementedError

theorem length_step1 (s t : Int) :
    (⟨s, t, 1⟩ : DateRange).length = (t - s).toNat := by
  show (if (0 : Int) < 1 then
      (if s < t then ((t - s - 1) / 1).toNat + 1 else 0)
    else
      (if t < s then ((s - t - 1) / (-(1 : Int))).toNat + 1 else 0))
    = (t - s).toNat
  rw [if_pos (by norm_num : (0 : Int) < 1)]
  rcases lt_or_ge s t with h | h
  · rw [if_pos h, Int.ediv_one]
    omega
  · rw [if_neg (by omega : ¬ s < t)]
    omega

theorem containsOrd_step1 (s t o : Int) :
    (⟨s, t, 1⟩ : DateRange).containsOrd o
      = (decide (s ≤ o) && decide (o < t)) := by
  unfold DateRange.containsOrd
  rw [if_pos (by norm_num : (0 : Int) < 1)]
  have h1 : (o - s).fmod 1 = 0 := fmod_eq_zero_iff_dvd.mpr (one_dvd _)
  rw [h1]
  simp

/-- C8: when two ranges use different, non-unit steps with a phase
misalignment the closed-form method cannot resolve, `is_part`,
`is_proper_part`, `underlaps`, `is_adjacent`, `union` and `difference` all
signal the unsupported-relation error, while `overlaps` still returns the
correct boolean (true iff the element sets intersect); moreover two empty
ranges do not overlap. -/
theorem mereology_unsupported_spec (a b : DateRange)
    (hu : mereologyUnsupported a b = true) (ha : a.step ≠ 0) :
    DateRange.is_part a b = .error .notImplementedError
    ∧ DateRange.is_proper_part a b = .error .notImplementedError
    ∧ DateRange.underlaps a b = .error .notImplementedError
    ∧ DateRange.is_adjacent a b = .error .notImplementedError
    ∧ DateRange.union a b = .error .notImplementedError
    ∧ DateRange.difference a b = .error .notImplementedError
    ∧ (DateRange.overlaps a b = true
        ↔ ∃ o, a.containsOrd o = true ∧ b.containsOrd o = true)
    ∧ DateRange.overlaps DateRange.emptyRange DateRange.emptyRange = false := by
  refine ⟨?_, ?_, ?_, ?_, ?_, ?_, ?_, ?_⟩
  · unfold DateRange.is_part
    rw [if_pos hu]
  · unfold DateRange.is_proper_part
    rw [if_pos hu]
  · unfold DateRange.underlaps
    rw [if_pos hu]
  · unfold DateRange.is_adjacent
    rw [if_pos hu]
  · unfold DateRange.union
    rw [if_pos hu]
  · unfold DateRange.difference
    rw [if_pos hu]
  · unfold DateRange.overlaps
    rw [List.any_eq_true]
    constructor
    · rintro ⟨o, ho, hc⟩
      exact ⟨o, (DateRange.mem_toList_iff_contains ha o).mp ho, hc⟩
    · rintro ⟨o, hca, hcb⟩
      exact ⟨o, (DateRange.mem_toList_iff_contains ha o).mpr hca, hcb⟩
  · rfl

theorem mereology_unsupported_witness :
    mereologyUnsupported ⟨100, 120, 2⟩ ⟨101, 130, 4⟩ = true
    ∧ (⟨100, 120, 2⟩ : DateRange).step ≠ 0
    ∧ (DateRange.is_part ⟨100, 120, 2⟩ ⟨101, 130, 4⟩
        = .error .notImplementedError
      ∧ DateRange.is_proper_part ⟨100, 120, 2⟩ ⟨101, 130, 4⟩
        = .error .notImplementedError
      ∧ DateRange.underlaps ⟨100, 120, 2⟩ ⟨101, 130, 4⟩
        = .error .notImplementedError
      ∧ DateRange.is_adjacent ⟨100, 120, 2⟩ ⟨101, 130, 4⟩
        = .error .notImplementedError
      ∧ DateRange.union ⟨100, 120, 2⟩ ⟨101, 130, 4⟩
        = .error .notImplementedError
      ∧ DateRange.difference ⟨100, 120, 2⟩ ⟨101, 130, 4⟩
        = .error .notImplementedError
      ∧ (DateRange.overlaps ⟨100, 120, 2⟩ ⟨101, 130, 4⟩ = true
          ↔ ∃ o, (⟨100, 120, 2⟩ : DateRange).containsOrd o = true
              ∧ (⟨101, 130, 4⟩ : DateRange).containsOrd o = true)
      ∧ DateRange.overlaps DateRange.emptyRange DateRange.emptyRange
          = false) :=
  ⟨by decide, by decide,
    mereology_unsupported_spec ⟨100, 120, 2⟩ ⟨101, 130, 4⟩ (by decide) (by decide)⟩

theorem containsOrd_step1_iff {s t o : Int} :
    (⟨s, t, 1⟩ : DateRange).containsOrd o = true ↔ (s ≤ o ∧ o < t) := by
  rw [containsOrd_step1, Bool.and_eq_true, decide_eq_true_eq, decide_eq_true_eq]

theorem overlaps_step1_true {sa ta sb tb o : Int}
    (h1 : sa ≤ o) (h2 : o < ta) (h3 : sb ≤ o) (h4 : o < tb) :
    DateRange.overlaps ⟨sa, ta, 1⟩ ⟨sb, tb, 1⟩ = true := by
  unfold DateRange.overlaps
  rw [List.any_eq_true]
  refine ⟨o, ?_, containsOrd_step1_iff.mpr ⟨h3, h4⟩⟩
  rw [DateRange.mem_toList_iff_contains (by norm_num : (1 : Int) ≠ 0)]
  exact containsOrd_step1_iff.mpr ⟨h1, h2⟩

/-- C9: for step-compatible (unit-step) ranges α and β, `difference(α, β)`
returns 0, 1 or 2 fragments whose combined elements are exactly α's elements
with β's removed: no fragment iff α ⊆ β, α itself when β does not overlap a
non-empty α, and two fragments (left and right remainders) when a non-empty β
lies strictly inside α. -/
theorem difference_fragments (a b : DateRange)
    (hsa : a.step = 1) (hsb : b.step = 1) :
    ∃ l, DateRange.difference a b = .ok l
      ∧ l.length ≤ 2
      ∧ (∀ o : Int, (l.any (fun f => f.containsOrd o))
          = (a.containsOrd o && !(b.containsOrd o)))
      ∧ (l = [] ↔ ∀ o : Int, a.containsOrd o = true → b.containsOrd o = true)
      ∧ (a.length ≠ 0 → DateRange.overlaps a b = false → l = [a])
      ∧ (b.length ≠ 0 → a.start < b.start → b.stop < a.stop
          → l.length = 2) := by
  obtain ⟨sa, ta, pa⟩ := a
  obtain ⟨sb, tb, pb⟩ := b
  have hpa : pa = 1 := hsa
  have hpb : pb = 1 := hsb
  subst hpa
  subst hpb
  have hok : DateRange.difference ⟨sa, ta, 1⟩ ⟨sb, tb, 1⟩
      = .ok (diffFragments ⟨sa, ta, 1⟩ ⟨sb, tb, 1⟩) := by
    unfold DateRange.difference
    rw [if_neg (by simp [mereologyUnsupported]), if_pos ⟨rfl, rfl⟩]
  by_cases hA : ta ≤ sa
  · -- α is empty: no fragment
    have hl : diffFragments ⟨sa, ta, 1⟩ ⟨sb, tb, 1⟩ = [] := by
      unfold diffFragments
      rw [if_pos (by simp only [length_step1]; omega)]
    refine ⟨[], by rw [hok, hl], by simp, ?_, ?_, ?_, ?_⟩
    · intro o
      rw [Bool.eq_iff_iff]
      simp only [List.any_nil, Bool.false_eq_true, Bool.and_eq_true,
        Bool.not_eq_true', Bool.and_eq_false_iff, containsOrd_step1,
        decide_eq_true_eq, decide_eq_false_iff_not, false_iff]
      omega
    · constructor
      · intro _ o hco
        rw [containsOrd_step1_iff] at hco
        exact absurd hco (by omega)
      · intro _
        rfl
    · intro hane _
      rw [length_step1] at hane
      exact absurd (by omega : (ta - sa).toNat = 0) hane
    · intro hbne h1 h2
      rw [length_step1] at hbne
      have h1' : sa < sb := h1
      have h2' : tb < ta := h2
      exact absurd hA (by omega)
  · by_cases hB : tb ≤ sb
    · -- β is empty: α returned unchanged
      have hl : diffFragments ⟨sa, ta, 1⟩ ⟨sb, tb, 1⟩ = [⟨sa, ta, 1⟩] := by
        unfold diffFragments
        rw [if_neg (by simp only [length_step1]; omega),
          if_pos (by simp only [length_step1]; omega)]
      refine ⟨[⟨sa, ta, 1⟩], by rw [hok, hl], by simp, ?_, ?_, ?_, ?_⟩
      · intro o
        rw [Bool.eq_iff_iff]
        simp only [List.any_cons, List.any_nil, Bool.or_false, Bool.or_eq_true,
          Bool.false_eq_true, or_false, Bool.and_eq_true, Bool.not_eq_true',
          Bool.and_eq_false_iff, containsOrd_step1, decide_eq_true_eq,
          decide_eq_false_iff_not]
        omega
      · constructor
        · intro h
          exact absurd h (by simp)
        · intro h
          have hc := h sa (containsOrd_step1_iff.mpr ⟨le_refl sa, by omega⟩)
          rw [containsOrd_step1_iff] at hc
          exact absurd hc (by omega)
      · intro _ _
        rfl
      · intro hbne _ _
        rw [length_step1] at hbne
        exact absurd (by omega : (tb - sb).toNat = 0) hbne
    · -- both non-empty
      by_cases hL : sb ≤ sa
      · by_cases hR : ta ≤ tb
        · -- β covers α: no fragment
          have hl : diffFragments ⟨sa, ta, 1⟩ ⟨sb, tb, 1⟩ = [] := by
            unfold diffFragments
            rw [if_neg (by simp only [length_step1]; omega),
              if_neg (by simp only [length_step1]; omega),
              if_neg (by simp only [length_step1]; omega),
              if_neg (by simp only [length_step1]; omega)]
            rfl
          refine ⟨[], by rw [hok, hl], by simp, ?_, ?_, ?_, ?_⟩
          · intro o
            rw [Bool.eq_iff_iff]
            simp only [List.any_nil, Bool.false_eq_true, Bool.and_eq_true,
              Bool.not_eq_true', Bool.and_eq_false_iff, containsOrd_step1,
              decide_eq_true_eq, decide_eq_false_iff_not, false_iff]
            omega
          · constructor
            · intro _ o hco
              rw [containsOrd_step1_iff] at hco ⊢
              omega
            · intro _
              rfl
          · intro _ hover
            rw [@overlaps_step1_true sa ta sb tb sa (le_refl sa) (by omega)
              (by omega) (by omega)] at hover
            exact Bool.noConfusion hover
          · intro _ h1 _
            have h1' : sa < sb := h1
            exact absurd hL (by omega)
        · -- β truncates the left end of α: one right fragment
          have hl : diffFragments ⟨sa, ta, 1⟩ ⟨sb, tb, 1⟩
              = [⟨max sa tb, ta, 1⟩] := by
            unfold diffFragments
            rw [if_neg (by simp only [length_step1]; omega),
              if_neg (by simp only [length_step1]; omega),
              if_neg (by simp only [length_step1]; omega),
              if_pos (by simp only [length_step1]; omega)]
            rfl
          refine ⟨[⟨max sa tb, ta, 1⟩], by rw [hok, hl], by simp, ?_, ?_, ?_, ?_⟩
          · intro o
            rw [Bool.eq_iff_iff]
            simp only [List.any_cons, List.any_nil, Bool.or_false,
              Bool.or_eq_true, Bool.false_eq_true, or_false, Bool.and_eq_true,
              Bool.not_eq_true', Bool.and_eq_false_iff, containsOrd_step1,
              decide_eq_true_eq, decide_eq_false_iff_not]
            omega
          · constructor
            · intro h
              exact absurd h (by simp)
            · intro h
              have hc := h (max sa tb)
                (containsOrd_step1_iff.mpr ⟨by omega, by omega⟩)
              rw [containsOrd_step1_iff] at hc
              exact absurd hc (by omega)
          · intro _ hover
            rcases le_or_lt tb sa with hd | hd
            · have hm : max sa tb = sa := by omega
              rw [hm]
            · rw [@overlaps_step1_true sa ta sb tb sa (le_refl sa) (by omega)
                hL hd] at hover
              exact Bool.noConfusion hover
          · intro _ h1 _
            have h1' : sa < sb := h1
            exact absurd hL (by omega)
      · by_cases hR : ta ≤ tb
        · -- β truncates the right end of α: one left fragment
          have hl : diffFragments ⟨sa, ta, 1⟩ ⟨sb, tb, 1⟩
              = [⟨sa, min ta sb, 1⟩] := by
            unfold diffFragments
            rw [if_neg (by simp only [length_step1]; omega),
              if_neg (by simp only [length_step1]; omega),
              if_pos (by simp only [length_step1]; omega),
              if_neg (by simp only [length_step1]; omega)]
            rfl
          refine ⟨[⟨sa, min ta sb, 1⟩], by rw [hok, hl], by simp, ?_, ?_, ?_, ?_⟩
          · intro o
            rw [Bool.eq_iff_iff]
            simp only [List.any_cons, List.any_nil, Bool.or_false,
              Bool.or_eq_true, Bool.false_eq_true, or_false, Bool.and_eq_true,
              Bool.not_eq_true', Bool.and_eq_false_iff, containsOrd_step1,
              decide_eq_true_eq, decide_eq_false_iff_not]
            omega
          · constructor
            · intro h
              exact absurd h (by simp)
            · intro h
              have hc := h sa (containsOrd_step1_iff.mpr ⟨le_refl sa, by omega⟩)
              rw [containsOrd_step1_iff] at hc
              exact absurd hc (by omega)
          · intro _ hover
            rcases le_or_lt ta sb with hd | hd
            · have hm : min ta sb = ta := by omega
              rw [hm]
            · rw [@overlaps_step1_true sa ta sb tb sb (by omega) hd
                (le_refl sb) (by omega)] at hover
              exact Bool.noConfusion hover
          · intro _ _ h2
            have h2' : tb < ta := h2
            exact absurd hR (by omega)
        · -- β lies strictly inside α: left and right remainders
          have hl : diffFragments ⟨sa, ta, 1⟩ ⟨sb, tb, 1⟩
              = [⟨sa, min ta sb, 1⟩, ⟨max sa tb, ta, 1⟩] := by
            unfold diffFragments
            rw [if_neg (by simp only [length_step1]; omega),
              if_neg (by simp only [length_step1]; omega),
              if_pos (by simp only [length_step1]; omega),
              if_pos (by simp only [length_step1]; omega)]
            rfl
          refine ⟨[⟨sa, min ta sb, 1⟩, ⟨max sa tb, ta, 1⟩],
            by rw [hok, hl], by simp, ?_, ?_, ?_, ?_⟩
          · intro o
            rw [Bool.eq_iff_iff]
            simp only [List.any_cons, List.any_nil, Bool.or_false,
              Bool.or_eq_true, Bool.false_eq_true, or_false, Bool.and_eq_true,
              Bool.not_eq_true', Bool.and_eq_false_iff, containsOrd_step1,
              decide_eq_true_eq, decide_eq_false_iff_not]
            omega
          · constructor
            · intro h
              exact absurd h (by simp)
            · intro h
              have hc := h sa (containsOrd_step1_iff.mpr ⟨le_refl sa, by omega⟩)
              rw [containsOrd_step1_iff] at hc
              exact absurd hc (by omega)
          · intro _ hover
            rw [@overlaps_step1_true sa ta sb tb sb (by omega) (by omega)
              (le_refl sb) (by omega)] at hover
            exact Bool.noConfusion hover
          · intro _ _ _
            rfl

theorem difference_fragments_witness :
    (⟨738157, 738164, 1⟩ : DateRange).step = 1
    ∧ (⟨738158, 738162, 1⟩ : DateRange).step = 1
    ∧ ∃ l, DateRange.difference ⟨738157, 738164, 1⟩ ⟨738158, 738162, 1⟩ = .ok l
      ∧ l.length ≤ 2
      ∧ (∀ o : Int, (l.any (fun f => f.containsOrd o))
          = ((⟨738157, 738164, 1⟩ : DateRange).containsOrd o
              && !((⟨738158, 738162, 1⟩ : DateRange).containsOrd o)))
      ∧ (l = [] ↔ ∀ o : Int,
          (⟨738157, 738164, 1⟩ : DateRange).containsOrd o = true
            → (⟨738158, 738162, 1⟩ : DateRange).containsOrd o = true)
      ∧ ((⟨738157, 738164, 1⟩ : DateRange).length ≠ 0
          → DateRange.overlaps ⟨738157, 738164, 1⟩ ⟨738158, 738162, 1⟩ = false
          → l = [⟨738157, 738164, 1⟩])
      ∧ ((⟨738158, 738162, 1⟩ : DateRange).length ≠ 0
          → (⟨738157, 738164, 1⟩ : DateRange).start
              < (⟨738158, 738162, 1⟩ : DateRange).start
          → (⟨738158, 738162, 1⟩ : DateRange).stop
              < (⟨738157, 738164, 1⟩ : DateRange).stop
          → l.length = 2) :=
  ⟨rfl, rfl, difference_fragments ⟨738157, 738164, 1⟩ ⟨738158, 738162, 1⟩ rfl rfl⟩

end Yyyymmdd
